import Mathlib

/-!
# Atlas-quad batcher and frame driver of the OpenGL texture-atlas demo

A shallow embedding of `src/code.c++`:

* `addQuadIndexed` (source lines 45-63), the helper that appends one textured
  quad to a shared vertex / index buffer;
* the camera update of the render loop (source lines 215-223);
* the control flow of `main` over the outcomes of its collaborators
  (window creation, GL loader, texture decode, close requests).

`std::vector<T>` is a `List T`; `push_back` appends at the end.  `unsigned int`
is a natural number reduced modulo `2 ^ 32`.  `float` is `F32`, an IEEE 754
binary32 value given by its sign, exponent and significand fields, with signed
zeros, subnormal values, infinities and NaN.  Addition, subtraction and
multiplication are rounded to nearest, ties to even, after every single
operation (a product and a sum are not fused), and every invalid operation
returns one and the same NaN.  The `double` that `glfwGetTime` returns is a
rational number, and the cast `(float)` rounds it.  `addQuadIndexed` itself is
written for any element type `F` with an addition and a zero, so that its
structural properties hold for whatever arithmetic the elements obey.

Statements about areas, elapsed time and tolerances take the exact rational
value `F32.toRat` of finite floats.
-/


namespace AtlasQuad

/-! ## Machine integers and vectors -/

/-- The number of values of the 32-bit type `unsigned int`. -/
def UINT_SIZE : Nat := 2 ^ 32

/-- Conversion of a natural number to `unsigned int`, and the result of
`unsigned int` arithmetic: reduction modulo `2 ^ 32`. -/
def toUnsigned (n : Nat) : Nat := n % UINT_SIZE

/-- The method `std::vector::push_back`: one element is appended at the end. -/
def push_back {α : Type} (v : List α) (a : α) : List α := v ++ [a]

/-! ## Binary32 floating point -/

/-- The type `float`: an IEEE 754 binary32 value by its three bit fields, the
sign bit, the 8-bit biased exponent and the 23-bit significand field. -/
structure F32 where
  sign : Bool
  exp : Fin 256
  man : Fin 8388608
  deriving DecidableEq

namespace F32

/-- A NaN: the exponent field is all ones and the significand field is not 0. -/
def isNaN (x : F32) : Bool := x.exp.val == 255 && x.man.val != 0

/-- An infinity: the exponent field is all ones and the significand field is 0. -/
def isInf (x : F32) : Bool := x.exp.val == 255 && x.man.val == 0

/-- A finite value: the exponent field is not all ones. -/
def isFinite (x : F32) : Bool := x.exp.val != 255

/-- The magnitude of a finite value in units of `2 ^ (-149)`, the smallest
positive value: a subnormal value has the exponent field 0. -/
def mag (x : F32) : Nat :=
  if x.exp.val = 0 then x.man.val else (8388608 + x.man.val) * 2 ^ (x.exp.val - 1)

/-- The finite value in units of `2 ^ (-149)`, as a signed integer. -/
def toInt (x : F32) : Int := if x.sign then -(x.mag : Int) else (x.mag : Int)

/-- The exact value of a finite `x` as a rational number. -/
def toRat (x : F32) : ℚ := (x.toInt : ℚ) / 2 ^ 149

/-- The NaN that an invalid operation returns. -/
def nan : F32 := ⟨false, 255, 4194304⟩

/-- The infinity of the given sign. -/
def inf (s : Bool) : F32 := ⟨s, 255, 0⟩

/-- The zero of the given sign. -/
def zero (s : Bool) : F32 := ⟨s, 0, 0⟩

/-- The unary minus: the sign bit is flipped. -/
def neg (x : F32) : F32 := ⟨!x.sign, x.exp, x.man⟩

/-- The binary exponent at which `n` (in units of `2 ^ (-149)`) is rounded:
the least `e` with `n / 2 ^ e < 2 ^ 24`, searched up to `fuel`.  It is 0 for the
subnormal values and the first binade of normal values. -/
def expo : Nat → Nat → Nat
  | 0, _ => 0
  | fuel + 1, n => if n < 16777216 then 0 else expo fuel (n / 2) + 1

/-- The quotient `N / D` rounded to the nearest integer, ties to the even one. -/
def roundSig (N D : Nat) : Nat :=
  let m := N / D
  let r := N % D
  if D < 2 * r ∨ (2 * r = D ∧ m % 2 = 1) then m + 1 else m

/-- The binary32 value of sign `s` and magnitude `m * 2 ^ e` (in units of
`2 ^ (-149)`), for a significand `m` of at most `2 ^ 24`: a subnormal value or
zero when `m < 2 ^ 23`, a significand `2 ^ 24` moves to the next exponent, and
an exponent field that would reach 255 is an overflow to infinity. -/
def pack (s : Bool) (m e : Nat) : F32 :=
  if m < 8388608 then ⟨s, 0, Fin.ofNat m⟩
  else if m = 16777216 then (if 253 ≤ e then inf s else ⟨s, Fin.ofNat (e + 2), 0⟩)
  else if 254 ≤ e then inf s
  else ⟨s, Fin.ofNat (e + 1), Fin.ofNat (m - 8388608)⟩

/-- The value `N / D` (in units of `2 ^ (-149)`; `D` is positive) with the sign
`s`, rounded to nearest, ties to even, to a binary32 value: 24 significant bits,
or the grid of subnormal values for small values, and an infinity on overflow.
A search for the exponent that stops at 300 is beyond the overflow threshold,
so that the result is then an infinity. -/
def round (s : Bool) (N D : Nat) : F32 :=
  let e := expo 300 (N / D)
  pack s (roundSig N (D * 2 ^ e)) e

/-- The operator `+` of `float`.  A NaN operand or `inf + (-inf)` gives a NaN;
an exact sum 0 is `-0` only when both operands are `-0`. -/
def add (a b : F32) : F32 :=
  if a.isNaN || b.isNaN then nan
  else if a.isInf then (if b.isInf && (a.sign != b.sign) then nan else a)
  else if b.isInf then b
  else
    let z := a.toInt + b.toInt
    if z = 0 then zero (a.sign && b.sign)
    else round (decide (z < 0)) z.natAbs 1

/-- The operator `-` of `float`: `a - b` is `a + (-b)`. -/
def sub (a b : F32) : F32 := add a (neg b)

/-- The operator `*` of `float`.  A NaN operand or `0 * inf` gives a NaN. -/
def mul (a b : F32) : F32 :=
  if a.isNaN || b.isNaN then nan
  else if a.isInf || b.isInf then
    (if a.mag = 0 || b.mag = 0 then nan else inf (a.sign != b.sign))
  else round (a.sign != b.sign) (a.mag * b.mag) (2 ^ 149)

/-- The conversion to `float` of a real value, such as a `double` under the
cast `(float)` or a decimal literal with the suffix `f`. -/
def ofRat (q : ℚ) : F32 := round (decide (q < 0)) (q.num.natAbs * 2 ^ 149) q.den

/-- The comparison `a <= b` of `float`: false when an operand is a NaN.  An
infinity is compared as `2 ^ 300` units of its sign, beyond every finite
value. -/
def le (a b : F32) : Bool :=
  !a.isNaN && !b.isNaN &&
    decide ((if a.isInf then (if a.sign then -(2 : Int) ^ 300 else 2 ^ 300) else a.toInt) ≤
      (if b.isInf then (if b.sign then -(2 : Int) ^ 300 else 2 ^ 300) else b.toInt))

instance : Add F32 := ⟨add⟩

instance : Sub F32 := ⟨sub⟩

instance : Mul F32 := ⟨mul⟩

instance : Zero F32 := ⟨zero false⟩

instance : One F32 := ⟨⟨false, 127, 0⟩⟩

end F32


/-! ## The batcher -/

/-- The function `addQuadIndexed` of `src/code.c++` (lines 45-63).  The two
vectors passed by reference are returned as a pair.  `start` is the
`size_t` value `vertices.size() / 5` converted to `unsigned int`, and each
`start + k` is `unsigned int` addition. -/
def addQuadIndexed {F : Type} [Add F] [Zero F]
    (vertices : List F) (indices : List Nat)
    (x y w h u0 v0 u1 v1 : F) : List F × List Nat :=
  let start := toUnsigned (vertices.length / 5)
  -- top-left
  let vertices := push_back vertices x
  let vertices := push_back vertices (y + h)
  let vertices := push_back vertices 0
  let vertices := push_back vertices u0
  let vertices := push_back vertices v1
  -- bottom-left
  let vertices := push_back vertices x
  let vertices := push_back vertices y
  let vertices := push_back vertices 0
  let vertices := push_back vertices u0
  let vertices := push_back vertices v0
  -- bottom-right
  let vertices := push_back vertices (x + w)
  let vertices := push_back vertices y
  let vertices := push_back vertices 0
  let vertices := push_back vertices u1
  let vertices := push_back vertices v0
  -- top-right
  let vertices := push_back vertices (x + w)
  let vertices := push_back vertices (y + h)
  let vertices := push_back vertices 0
  let vertices := push_back vertices u1
  let vertices := push_back vertices v1
  -- the two triangles
  let indices := push_back indices (toUnsigned (start + 0))
  let indices := push_back indices (toUnsigned (start + 1))
  let indices := push_back indices (toUnsigned (start + 2))
  let indices := push_back indices (toUnsigned (start + 0))
  let indices := push_back indices (toUnsigned (start + 2))
  let indices := push_back indices (toUnsigned (start + 3))
  (vertices, indices)

/-- The ten arguments of one call of `addQuadIndexed` after the two vectors. -/
structure QuadArgs (F : Type) where
  x : F
  y : F
  w : F
  h : F
  u0 : F
  v0 : F
  u1 : F
  v1 : F

/-- One call of `addQuadIndexed` on a batch (vertex vector, index vector). -/
def addQuad {F : Type} [Add F] [Zero F]
    (batch : List F × List Nat) (q : QuadArgs F) : List F × List Nat :=
  addQuadIndexed batch.1 batch.2 q.x q.y q.w q.h q.u0 q.v0 q.u1 q.v1

/-- Successive calls of `addQuadIndexed`, one per entry of `qs`, on two
vectors that start empty, as `main` does at lines 95-100. -/
def addQuads {F : Type} [Add F] [Zero F] (qs : List (QuadArgs F)) : List F × List Nat :=
  qs.foldl addQuad ([], [])

/-- The six index values that the `k`-th call (counted from 0) appended. -/
def quadIndices (indices : List Nat) (k : Nat) : List Nat :=
  (indices.drop (6 * k)).take 6

/-- The batch that `main` builds at lines 95-100: two calls on empty vectors. -/
def mainBatch : List F32 × List Nat :=
  let vertices : List F32 := []
  let indices : List Nat := []
  let b := addQuadIndexed vertices indices (F32.ofRat (-3 / 2)) (F32.ofRat (-1 / 2))
    (F32.ofRat 1) (F32.ofRat 1) (F32.ofRat 0) (F32.ofRat (4 / 5)) (F32.ofRat (1 / 5))
    (F32.ofRat (7 / 10))
  addQuadIndexed b.1 b.2 (F32.ofRat 0) (F32.ofRat (-1 / 2)) (F32.ofRat 1) (F32.ofRat 1)
    (F32.ofRat 0) (F32.ofRat 0) (F32.ofRat (1 / 5)) (F32.ofRat (1 / 5))

/-- The batch predicate: the vertex vector holds whole vertices of stride 5 and
every index is below the vertex count. -/
def batchValid {F : Type} (batch : List F × List Nat) : Prop :=
  batch.1.length % 5 = 0 ∧ ∀ i ∈ batch.2, i < batch.1.length / 5

instance {F : Type} (batch : List F × List Nat) : Decidable (batchValid batch) := by
  unfold batchValid
  infer_instance

/-! ## Geometry of one quad -/

/-- The state of the four movement keys in one frame (`GLFW_PRESS` is `true`). -/
structure Keys where
  keyW : Bool
  keyS : Bool
  keyA : Bool
  keyD : Bool

/-- What one frame reads from the windowing library: the `double` that
`glfwGetTime` returns, by its exact value, and the keys. -/
structure FrameInput where
  time : ℚ
  keys : Keys

/-- The variables the render loop carries from frame to frame. -/
structure FrameState where
  cameraX : F32
  cameraY : F32
  lastFrame : F32

/-- The values at lines 197-198 and 215: the camera at the origin and
`lastFrame` at `0.0f`. -/
def initialFrameState : FrameState := ⟨0, 0, 0⟩

/-- The value `1.0f` of `cameraSpeed` at line 199. -/
def mainCameraSpeed : F32 := 1

/-- Lines 215-223 of the render loop. -/
def updateCamera (cameraSpeed : F32) (s : FrameState) (inp : FrameInput) : FrameState :=
  let currentFrame := F32.ofRat inp.time
  let deltaTime := currentFrame - s.lastFrame
  let lastFrame := currentFrame
  let cameraX := s.cameraX
  let cameraY := s.cameraY
  let cameraY := if inp.keys.keyW then cameraY + cameraSpeed * deltaTime else cameraY
  let cameraY := if inp.keys.keyS then cameraY - cameraSpeed * deltaTime else cameraY
  let cameraX := if inp.keys.keyA then cameraX - cameraSpeed * deltaTime else cameraX
  let cameraX := if inp.keys.keyD then cameraX + cameraSpeed * deltaTime else cameraX
  ⟨cameraX, cameraY, lastFrame⟩

/-- The camera update run over successive frames. -/
def runFrames (cameraSpeed : F32) (s : FrameState) (inputs : List FrameInput) : FrameState :=
  inputs.foldl (updateCamera cameraSpeed) s

/-- The value of `deltaTime` (line 217) in each of the successive frames. -/
def frameDeltas (cameraSpeed : F32) : FrameState → List FrameInput → List F32
  | _, [] => []
  | s, inp :: rest =>
    (F32.ofRat inp.time - s.lastFrame) ::
      frameDeltas cameraSpeed (updateCamera cameraSpeed s inp) rest

/-- Frames with the given timer readings in which the same keys are held. -/
def heldFrames (keys : Keys) (times : List ℚ) : List FrameInput :=
  times.map (fun t => ⟨t, keys⟩)

/-- Only the W key is held. -/
def onlyW : Keys := ⟨true, false, false, false⟩

/-- Only the S key is held. -/
def onlyS : Keys := ⟨false, true, false, false⟩

/-- Only the A key is held. -/
def onlyA : Keys := ⟨false, false, true, false⟩

/-- Only the D key is held. -/
def onlyD : Keys := ⟨false, false, false, true⟩

/-- The state holds finite values. -/
def stateFinite (s : FrameState) : Bool :=
  s.cameraX.isFinite && s.cameraY.isFinite && s.lastFrame.isFinite

/-- Every float that one frame computes is finite: the timestamp, `deltaTime`,
the product `cameraSpeed * deltaTime` and the new camera offset. -/
def frameFinite (cameraSpeed : F32) (s : FrameState) (inp : FrameInput) : Bool :=
  (F32.ofRat inp.time).isFinite && (F32.ofRat inp.time - s.lastFrame).isFinite &&
    (cameraSpeed * (F32.ofRat inp.time - s.lastFrame)).isFinite &&
    (updateCamera cameraSpeed s inp).cameraX.isFinite &&
    (updateCamera cameraSpeed s inp).cameraY.isFinite

/-- Every float that the successive frames compute is finite. -/
def runFinite (cameraSpeed : F32) : FrameState → List FrameInput → Bool
  | _, [] => true
  | s, inp :: rest =>
    frameFinite cameraSpeed s inp && runFinite cameraSpeed (updateCamera cameraSpeed s inp) rest

/-- The direction in which the held keys move the camera along x: `+1` for D,
`-1` for A. -/
def dirX (keys : Keys) : ℚ := (if keys.keyD then 1 else 0) - (if keys.keyA then 1 else 0)

/-- The direction in which the held keys move the camera along y: `+1` for W,
`-1` for S. -/
def dirY (keys : Keys) : ℚ := (if keys.keyW then 1 else 0) - (if keys.keyS then 1 else 0)

/-- The rounding tolerance of one frame for a camera coordinate `cam`: a
relative error `2 ^ (-24)` for each of the three float operations of the frame
(the subtraction of the timestamps, the product with the speed, the addition to
the coordinate), on the exact magnitudes of the values involved, plus half a
unit of the subnormal grid for the product. -/
def frameTolerance (cameraSpeed cam last : F32) (time : ℚ) : ℚ :=
  (|cam.toRat| + |(cameraSpeed * (F32.ofRat time - last)).toRat|
      + |cameraSpeed.toRat * (F32.ofRat time - last).toRat|
      + |cameraSpeed.toRat * ((F32.ofRat time).toRat - last.toRat)|) / 2 ^ 24
    + 1 / 2 ^ 150

/-- The rounding tolerance for `cameraX` accumulated over successive frames. -/
def runToleranceX (cameraSpeed : F32) : FrameState → List FrameInput → ℚ
  | _, [] => 0
  | s, inp :: rest =>
    frameTolerance cameraSpeed s.cameraX s.lastFrame inp.time
      + runToleranceX cameraSpeed (updateCamera cameraSpeed s inp) rest

/-- The rounding tolerance for `cameraY` accumulated over successive frames. -/
def runToleranceY (cameraSpeed : F32) : FrameState → List FrameInput → ℚ
  | _, [] => 0
  | s, inp :: rest =>
    frameTolerance cameraSpeed s.cameraY s.lastFrame inp.time
      + runToleranceY cameraSpeed (updateCamera cameraSpeed s inp) rest

/-- The exact differences between the successive float timestamps, the first
one taken from `last`. -/
def timeGaps : F32 → List FrameInput → List ℚ
  | _, [] => []
  | last, inp :: rest =>
    ((F32.ofRat inp.time).toRat - last.toRat) :: timeGaps (F32.ofRat inp.time) rest

/-- Every float timestamp and every `deltaTime` of the successive frames is
finite. -/
def stampsFinite : F32 → List FrameInput → Bool
  | _, [] => true
  | last, inp :: rest =>
    (F32.ofRat inp.time).isFinite && (F32.ofRat inp.time - last).isFinite &&
      stampsFinite (F32.ofRat inp.time) rest

/-- The float timestamps of the successive frames are non-decreasing from
`last` on, under the comparison `<=` of `float`. -/
def stampsMonotone : F32 → List FrameInput → Bool
  | _, [] => true
  | last, inp :: rest =>
    F32.le last (F32.ofRat inp.time) && stampsMonotone (F32.ofRat inp.time) rest


/-! ## The control flow of `main` -/

/-- The observable actions of `main` that the claims speak about. -/
inductive Event where
  | printFailed
  | glfwTerminate
  | printGladFailed
  | texImage
  | printTextureFailed
  | drawElements
  | swapBuffers
  | cleanup
  deriving DecidableEq, Repr

/-- The outcomes of the collaborators of `main`: whether `glfwCreateWindow`
returned a window, whether `gladLoadGLLoader` succeeded, whether `stbi_load`
returned pixel data, and the successive answers of `glfwWindowShouldClose`. -/
structure Collaborators where
  windowCreated : Bool
  loaderOk : Bool
  textureDecoded : Bool
  closeRequests : List Bool

/-- How a run of `main` ended: the value it returned and what it did. -/
structure Outcome where
  exitStatus : Int
  log : List Event
  deriving DecidableEq, Repr

/-- The render loop (lines 205-234): a frame is drawn for each answer `false`
of `glfwWindowShouldClose`, and the loop ends at the first answer `true`.  The
result is `none` when the answers run out before a close request: the loop is
then still running. -/
def renderLoop : List Bool → List Event → Option (List Event)
  | [], _ => none
  | true :: _, log => some log
  | false :: rest, log => renderLoop rest (log ++ [Event.drawElements, Event.swapBuffers])

/-- The function `main` (lines 71-246) over the outcomes of its collaborators. -/
def main (c : Collaborators) : Option Outcome :=
  if !c.windowCreated then
    some ⟨-1, [Event.printFailed, Event.glfwTerminate]⟩
  else if !c.loaderOk then
    some ⟨-1, [Event.printGladFailed]⟩
  else
    let log : List Event :=
      if c.textureDecoded then [Event.texImage] else [Event.printTextureFailed]
    match renderLoop c.closeRequests log with
    | none => none
    | some log => some ⟨0, log ++ [Event.cleanup, Event.glfwTerminate]⟩

/-- The number of frames of the render loop a run executed: its draw calls. -/
def framesDrawn (o : Outcome) : Nat := o.log.count Event.drawElements

/-- The unit quad with the unit UV rectangle, the arguments of the spec's
scenarios. -/
def unitQuad : QuadArgs ℚ := ⟨0, 0, 1, 1, 0, 0, 1, 1⟩

/-! ## Basic facts about `addQuadIndexed` -/

theorem addQuadIndexed_eq {F : Type} [Add F] [Zero F]
    (vertices : List F) (indices : List Nat) (x y w h u0 v0 u1 v1 : F) :
    addQuadIndexed vertices indices x y w h u0 v0 u1 v1 =
      (vertices ++ [x, y + h, 0, u0, v1,
                    x, y, 0, u0, v0,
                    x + w, y, 0, u1, v0,
                    x + w, y + h, 0, u1, v1],
       indices ++ [toUnsigned (toUnsigned (vertices.length / 5) + 0),
                   toUnsigned (toUnsigned (vertices.length / 5) + 1),
                   toUnsigned (toUnsigned (vertices.length / 5) + 2),
                   toUnsigned (toUnsigned (vertices.length / 5) + 0),
                   toUnsigned (toUnsigned (vertices.length / 5) + 2),
                   toUnsigned (toUnsigned (vertices.length / 5) + 3)]) := by
  simp [addQuadIndexed, push_back]

theorem toUnsigned_small {n : Nat} (h : n < 2 ^ 32) : toUnsigned n = n := by
  unfold toUnsigned UINT_SIZE
  exact Nat.mod_eq_of_lt h

/-! ## Claims C1 - C3 -/

/-- C1: one call of `addQuadIndexed` makes the vertex vector exactly 20 floats
longer and the index vector exactly 6 entries longer, and the former contents
of both are an unchanged initial segment of the results.  The function is
total: it returns a pair of vectors for every input. -/
theorem addQuadIndexed_appends {F : Type} [Add F] [Zero F]
    (vertices : List F) (indices : List Nat) (x y w h u0 v0 u1 v1 : F) :
    (addQuadIndexed vertices indices x y w h u0 v0 u1 v1).1.length = vertices.length + 4 * 5 ∧
    (addQuadIndexed vertices indices x y w h u0 v0 u1 v1).2.length = indices.length + 6 ∧
    (addQuadIndexed vertices indices x y w h u0 v0 u1 v1).1.take vertices.length = vertices ∧
    (addQuadIndexed vertices indices x y w h u0 v0 u1 v1).2.take indices.length = indices := by
  rw [addQuadIndexed_eq]
  simp

/-- C2: the floats appended are, in this order, top-left `(x, y+h, 0, u0, v1)`,
bottom-left `(x, y, 0, u0, v0)`, bottom-right `(x+w, y, 0, u1, v0)` and
top-right `(x+w, y+h, 0, u1, v1)`; on empty vectors the unit quad with the
unit UV rectangle gives the vertices and indices of the spec's scenario. -/
theorem addQuadIndexed_vertices {F : Type} [Add F] [Zero F]
    (vertices : List F) (indices : List Nat) (x y w h u0 v0 u1 v1 : F) :
    (addQuadIndexed vertices indices x y w h u0 v0 u1 v1).1 =
        vertices ++ [x, y + h, 0, u0, v1,
                     x, y, 0, u0, v0,
                     x + w, y, 0, u1, v0,
                     x + w, y + h, 0, u1, v1] ∧
    addQuadIndexed ([] : List ℚ) [] 0 0 1 1 0 0 1 1 =
        ([0, 1, 0, 0, 1,
          0, 0, 0, 0, 0,
          1, 0, 0, 1, 0,
          1, 1, 0, 1, 1],
         [0, 1, 2, 0, 2, 3]) := by
  refine ⟨by rw [addQuadIndexed_eq], ?_⟩
  rw [addQuadIndexed_eq]
  simp [toUnsigned, UINT_SIZE]

/-- C3, the claim as stated fails: on a vertex vector of `5 * 2 ^ 32` floats
the prior vertex count is `s = 2 ^ 32`, a multiple-of-5 length, yet the indices
appended are `0, 1, 2, 0, 2, 3` and not `s, s+1, s+2, s, s+2, s+3`, because
`start` is an `unsigned int`. -/
theorem addQuadIndexed_start_wraps :
    (List.replicate 21474836480 (0 : ℚ)).length % 5 = 0 ∧
    (List.replicate 21474836480 (0 : ℚ)).length / 5 = 4294967296 ∧
    (addQuadIndexed (List.replicate 21474836480 (0 : ℚ)) [] 0 0 1 1 0 0 1 1).2
      = [0, 1, 2, 0, 2, 3] ∧
    (addQuadIndexed (List.replicate 21474836480 (0 : ℚ)) [] 0 0 1 1 0 0 1 1).2
      ≠ [4294967296 + 0, 4294967296 + 1, 4294967296 + 2,
         4294967296 + 0, 4294967296 + 2, 4294967296 + 3] := by
  have hlen : (List.replicate 21474836480 (0 : ℚ)).length = 21474836480 :=
    List.length_replicate _ _
  have hidx : (addQuadIndexed (List.replicate 21474836480 (0 : ℚ)) [] 0 0 1 1 0 0 1 1).2
      = [0, 1, 2, 0, 2, 3] := by
    rw [addQuadIndexed_eq, hlen]
    simp only [toUnsigned, UINT_SIZE, List.nil_append]
    norm_num
  refine ⟨?_, ?_, hidx, ?_⟩
  · rw [hlen]
  · rw [hlen]
  · rw [hidx]
    intro h
    have h0 := (List.cons.inj h).1
    norm_num at h0

/-- C3, amended: when the prior vertex count `s = length / 5` satisfies
`s + 3 < 2 ^ 32`, the six indices appended are exactly
`s+0, s+1, s+2, s+0, s+2, s+3`, whatever the position and size of the quad,
and every one of them lies in `[s, s+3]`.  The length need not be a multiple
of 5 for this. -/
theorem addQuadIndexed_indices {F : Type} [Add F] [Zero F]
    (vertices : List F) (indices : List Nat) (x y w h u0 v0 u1 v1 : F)
    (hs : vertices.length / 5 + 3 < 2 ^ 32) :
    (addQuadIndexed vertices indices x y w h u0 v0 u1 v1).2 =
      indices ++ [vertices.length / 5 + 0, vertices.length / 5 + 1, vertices.length / 5 + 2,
                  vertices.length / 5 + 0, vertices.length / 5 + 2, vertices.length / 5 + 3] ∧
    ∀ i ∈ (addQuadIndexed vertices indices x y w h u0 v0 u1 v1).2.drop indices.length,
      vertices.length / 5 ≤ i ∧ i ≤ vertices.length / 5 + 3 := by
  have h0 : toUnsigned (vertices.length / 5) = vertices.length / 5 :=
    toUnsigned_small (by omega)
  have hk : ∀ k, k ≤ 3 → toUnsigned (vertices.length / 5 + k) = vertices.length / 5 + k :=
    fun k hk => toUnsigned_small (by omega)
  have heq : (addQuadIndexed vertices indices x y w h u0 v0 u1 v1).2 =
      indices ++ [vertices.length / 5 + 0, vertices.length / 5 + 1, vertices.length / 5 + 2,
                  vertices.length / 5 + 0, vertices.length / 5 + 2, vertices.length / 5 + 3] := by
    rw [addQuadIndexed_eq]
    simp only [h0, hk 0 (by omega), hk 1 (by omega), hk 2 (by omega), hk 3 (by omega)]
  refine ⟨heq, ?_⟩
  intro i hi
  rw [heq, List.drop_left] at hi
  simp only [List.mem_cons, List.mem_singleton, List.not_mem_nil, or_false] at hi
  omega

/-- C3, amended, at a concrete input: a quad appended to one vertex. -/
theorem addQuadIndexed_indices_witness :
    [(0 : ℚ), 0, 0, 0, 0].length / 5 + 3 < 2 ^ 32 ∧
    (addQuadIndexed [(0 : ℚ), 0, 0, 0, 0] [7] 2 3 4 5 0 0 1 1).2 =
      [7, 1, 2, 3, 1, 3, 4] :=
  ⟨by decide,
   (addQuadIndexed_indices [(0 : ℚ), 0, 0, 0, 0] [7] 2 3 4 5 0 0 1 1 (by decide)).1⟩

/-! ## Batches built by repeated calls -/

theorem toUnsigned_le (n : Nat) : toUnsigned n ≤ n := by
  unfold toUnsigned
  exact Nat.mod_le _ _

theorem addQuads_snoc {F : Type} [Add F] [Zero F] (qs : List (QuadArgs F)) (q : QuadArgs F) :
    addQuads (qs ++ [q]) = addQuad (addQuads qs) q := by
  simp [addQuads, List.foldl_append]

theorem addQuad_lengths {F : Type} [Add F] [Zero F]
    (batch : List F × List Nat) (q : QuadArgs F) :
    (addQuad batch q).1.length = batch.1.length + 20 ∧
    (addQuad batch q).2.length = batch.2.length + 6 := by
  unfold addQuad
  rw [addQuadIndexed_eq]
  simp

theorem addQuads_lengths {F : Type} [Add F] [Zero F] (qs : List (QuadArgs F)) :
    (addQuads qs).1.length = 20 * qs.length ∧ (addQuads qs).2.length = 6 * qs.length := by
  induction qs using List.reverseRecOn with
  | nil => simp [addQuads]
  | append_singleton qs q ih =>
    rw [addQuads_snoc]
    obtain ⟨h1, h2⟩ := addQuad_lengths (addQuads qs) q
    rw [h1, h2, ih.1, ih.2, List.length_append, List.length_singleton]
    constructor <;> ring

/-- The indices that the `k`-th call appended, with the `unsigned int`
arithmetic of the source left in place. -/
theorem quadIndices_addQuads {F : Type} [Add F] [Zero F] (qs : List (QuadArgs F)) :
    ∀ k, k < qs.length →
      quadIndices (addQuads qs).2 k =
        [toUnsigned (toUnsigned (4 * k) + 0), toUnsigned (toUnsigned (4 * k) + 1),
         toUnsigned (toUnsigned (4 * k) + 2), toUnsigned (toUnsigned (4 * k) + 0),
         toUnsigned (toUnsigned (4 * k) + 2), toUnsigned (toUnsigned (4 * k) + 3)] := by
  induction qs using List.reverseRecOn with
  | nil => intro k hk; simp at hk
  | append_singleton qs q ih =>
    intro k hk
    rw [List.length_append, List.length_singleton] at hk
    obtain ⟨hv, hi⟩ := addQuads_lengths qs
    have hsplit : (addQuads (qs ++ [q])).2 = (addQuads qs).2 ++
        [toUnsigned (toUnsigned (4 * qs.length) + 0), toUnsigned (toUnsigned (4 * qs.length) + 1),
         toUnsigned (toUnsigned (4 * qs.length) + 2), toUnsigned (toUnsigned (4 * qs.length) + 0),
         toUnsigned (toUnsigned (4 * qs.length) + 2),
         toUnsigned (toUnsigned (4 * qs.length) + 3)] := by
      rw [addQuads_snoc]
      unfold addQuad
      rw [addQuadIndexed_eq, hv]
      have h4 : 20 * qs.length / 5 = 4 * qs.length := by omega
      rw [h4]
    rw [hsplit]
    unfold quadIndices
    by_cases hlt : k < qs.length
    · have hle : 6 * k ≤ (addQuads qs).2.length := by omega
      rw [List.drop_append_of_le_length hle]
      have hle6 : 6 ≤ ((addQuads qs).2.drop (6 * k)).length := by
        rw [List.length_drop]; omega
      rw [List.take_append_of_le_length hle6]
      exact ih k hlt
    · have hk' : k = qs.length := by omega
      subst hk'
      rw [List.drop_left' hi]
      rfl

/-! ## Claims C4 and C5 -/

/-- C4, the claim as stated fails: after `2 ^ 30 + 1` calls from empty
vectors, the last call (`k = 2 ^ 30`) appended `0, 1, 2, 0, 2, 3`, which are
not in `[4k, 4k+3]` and are the very index values of the first call. -/
theorem addQuads_indices_shared :
    (List.replicate 1073741824 unitQuad ++ [unitQuad]).length = 1073741824 + 1 ∧
    quadIndices (addQuads (List.replicate 1073741824 unitQuad ++ [unitQuad])).2 1073741824
      = [0, 1, 2, 0, 2, 3] ∧
    quadIndices (addQuads (List.replicate 1073741824 unitQuad ++ [unitQuad])).2 0
      = [0, 1, 2, 0, 2, 3] ∧
    ¬ (∀ i ∈ quadIndices
          (addQuads (List.replicate 1073741824 unitQuad ++ [unitQuad])).2 1073741824,
        4 * 1073741824 ≤ i ∧ i ≤ 4 * 1073741824 + 3) := by
  have hlen : (List.replicate 1073741824 unitQuad ++ [unitQuad]).length = 1073741824 + 1 := by
    rw [List.length_append, List.length_replicate, List.length_singleton]
  have hlast := quadIndices_addQuads (List.replicate 1073741824 unitQuad ++ [unitQuad])
    1073741824 (by rw [hlen]; omega)
  have hfirst := quadIndices_addQuads (List.replicate 1073741824 unitQuad ++ [unitQuad])
    0 (by rw [hlen]; omega)
  have e1 : quadIndices (addQuads (List.replicate 1073741824 unitQuad ++ [unitQuad])).2
      1073741824 = [0, 1, 2, 0, 2, 3] := by
    rw [hlast]
    simp only [toUnsigned, UINT_SIZE]
    norm_num
  have e0 : quadIndices (addQuads (List.replicate 1073741824 unitQuad ++ [unitQuad])).2 0
      = [0, 1, 2, 0, 2, 3] := by
    rw [hfirst]
    simp only [toUnsigned, UINT_SIZE]
    norm_num
  refine ⟨hlen, e1, e0, ?_⟩
  rw [e1]
  intro h
  have := (h 0 (List.mem_cons_self _ _)).1
  omega

theorem quadIndices_small {F : Type} [Add F] [Zero F] (qs : List (QuadArgs F))
    (k : Nat) (hk : k < qs.length) (hsmall : k < 2 ^ 30) :
    quadIndices (addQuads qs).2 k =
      [4 * k + 0, 4 * k + 1, 4 * k + 2, 4 * k + 0, 4 * k + 2, 4 * k + 3] := by
  rw [quadIndices_addQuads qs k hk]
  have h0 : toUnsigned (4 * k) = 4 * k := toUnsigned_small (by omega)
  have hj : ∀ j, j ≤ 3 → toUnsigned (4 * k + j) = 4 * k + j :=
    fun j hj => toUnsigned_small (by omega)
  simp only [h0, hj 0 (by omega), hj 1 (by omega), hj 2 (by omega), hj 3 (by omega)]

/-- C4, amended: for every list of `N` quad arguments, `N` calls from empty
vectors give exactly `4N` vertices (`20N` floats) and `6N` indices; for every
`k < N` with `k < 2 ^ 30` the six indices of the `k`-th call are
`4k, 4k+1, 4k+2, 4k, 4k+2, 4k+3`, all in `[4k, 4k+3]`, so two different such
calls share no index value; for two calls with the same arguments the second
call's indices are `[4, 5, 6, 4, 6, 7]` and the vertex count is 8, and so it
is for the two calls of `main`. -/
theorem addQuads_partition {F : Type} [Add F] [Zero F] (qs : List (QuadArgs F)) :
    (addQuads qs).1.length = 20 * qs.length ∧
    (addQuads qs).1.length / 5 = 4 * qs.length ∧
    (addQuads qs).2.length = 6 * qs.length ∧
    (∀ k, k < qs.length → k < 2 ^ 30 →
      quadIndices (addQuads qs).2 k =
        [4 * k + 0, 4 * k + 1, 4 * k + 2, 4 * k + 0, 4 * k + 2, 4 * k + 3] ∧
      ∀ i ∈ quadIndices (addQuads qs).2 k, 4 * k ≤ i ∧ i ≤ 4 * k + 3) ∧
    (∀ j k, j < qs.length → k < qs.length → j < 2 ^ 30 → k < 2 ^ 30 → j ≠ k →
      ∀ i ∈ quadIndices (addQuads qs).2 j, i ∉ quadIndices (addQuads qs).2 k) ∧
    (∀ q : QuadArgs F,
      quadIndices (addQuads [q, q]).2 1 = [4, 5, 6, 4, 6, 7] ∧
      (addQuads [q, q]).1.length / 5 = 8) ∧
    (mainBatch.2 = [0, 1, 2, 0, 2, 3, 4, 5, 6, 4, 6, 7] ∧ mainBatch.1.length / 5 = 8) := by
  obtain ⟨hv, hi⟩ := addQuads_lengths qs
  have hrange : ∀ k, k < qs.length → k < 2 ^ 30 →
      ∀ i ∈ quadIndices (addQuads qs).2 k, 4 * k ≤ i ∧ i ≤ 4 * k + 3 := by
    intro k hk hsmall i hmem
    rw [quadIndices_small qs k hk hsmall] at hmem
    simp only [List.mem_cons, List.mem_singleton, List.not_mem_nil, or_false] at hmem
    omega
  refine ⟨hv, by rw [hv]; omega, hi, ?_, ?_, ?_, ?_⟩
  · intro k hk hsmall
    exact ⟨quadIndices_small qs k hk hsmall, hrange k hk hsmall⟩
  · intro j k hj hk hjs hks hne i hij hik
    have h1 := hrange j hj hjs i hij
    have h2 := hrange k hk hks i hik
    omega
  · intro q
    constructor
    · exact quadIndices_small [q, q] 1 (by simp) (by norm_num)
    · rw [(addQuads_lengths [q, q]).1]
      simp
  · simp [mainBatch, addQuadIndexed_eq, toUnsigned, UINT_SIZE]

/-- C4, amended, at a concrete input: three calls with the unit quad. -/
theorem addQuads_partition_witness :
    (2 < [unitQuad, unitQuad, unitQuad].length ∧ 2 < 2 ^ 30) ∧
    quadIndices (addQuads [unitQuad, unitQuad, unitQuad]).2 2 = [8, 9, 10, 8, 10, 11] ∧
    (5 ∈ quadIndices (addQuads [unitQuad, unitQuad, unitQuad]).2 1 ∧
      5 ∉ quadIndices (addQuads [unitQuad, unitQuad, unitQuad]).2 2) ∧
    (addQuads [unitQuad, unitQuad, unitQuad]).1.length / 5 = 12 :=
  ⟨⟨by decide, by decide⟩,
   ((addQuads_partition [unitQuad, unitQuad, unitQuad]).2.2.2.1 2
      (by decide) (by decide)).1,
   ⟨by decide,
    (addQuads_partition [unitQuad, unitQuad, unitQuad]).2.2.2.2.1 1 2
      (by decide) (by decide) (by decide) (by decide) (by decide) 5 (by decide)⟩,
   (addQuads_partition [unitQuad, unitQuad, unitQuad]).2.1⟩

theorem addQuadIndexed_valid {F : Type} [Add F] [Zero F]
    (vertices : List F) (indices : List Nat) (x y w h u0 v0 u1 v1 : F)
    (hv : batchValid (vertices, indices)) :
    batchValid (addQuadIndexed vertices indices x y w h u0 v0 u1 v1) := by
  obtain ⟨h5, hidx⟩ := hv
  simp only at h5 hidx
  rw [addQuadIndexed_eq]
  have hb : ∀ k, k ≤ 3 →
      toUnsigned (toUnsigned (vertices.length / 5) + k) < vertices.length / 5 + 4 := by
    intro k hk
    have h1 := toUnsigned_le (toUnsigned (vertices.length / 5) + k)
    have h2 := toUnsigned_le (vertices.length / 5)
    omega
  constructor
  · simp only [List.length_append, List.length_cons, List.length_nil]
    omega
  · intro i hi
    simp only [List.length_append, List.length_cons, List.length_nil]
    have hdiv : (vertices.length + (0 + 1 + 1 + 1 + 1 + 1 + 1 + 1 + 1 + 1 + 1 + 1 + 1 + 1 + 1 + 1
        + 1 + 1 + 1 + 1 + 1)) / 5 = vertices.length / 5 + 4 := by omega
    rw [hdiv]
    simp only [List.mem_append, List.mem_cons, List.mem_singleton, List.not_mem_nil,
      or_false] at hi
    rcases hi with hi | hi | hi | hi | hi | hi | hi
    · have := hidx i hi
      omega
    · rw [hi]; exact hb 0 (by omega)
    · rw [hi]; exact hb 1 (by omega)
    · rw [hi]; exact hb 2 (by omega)
    · rw [hi]; exact hb 0 (by omega)
    · rw [hi]; exact hb 2 (by omega)
    · rw [hi]; exact hb 3 (by omega)

theorem addQuads_valid {F : Type} [Add F] [Zero F] (qs : List (QuadArgs F)) :
    batchValid (addQuads qs) := by
  induction qs using List.reverseRecOn with
  | nil => simp [addQuads, batchValid]
  | append_singleton qs q ih =>
    rw [addQuads_snoc]
    exact addQuadIndexed_valid _ _ _ _ _ _ _ _ _ _ ih

/-- C5: the batch predicate (the vertex vector's length is a multiple of 5 and
every index is below the vertex count) holds for the empty batch, is preserved
by every call of `addQuadIndexed` with any arguments, and so holds after any
sequence of calls from the empty batch: every index references a vertex of the
buffer and the next call finds a length that is a multiple of 5. -/
theorem batchValid_invariant {F : Type} [Add F] [Zero F] :
    batchValid (([], []) : List F × List Nat) ∧
    (∀ (vertices : List F) (indices : List Nat) (x y w h u0 v0 u1 v1 : F),
      batchValid (vertices, indices) →
      batchValid (addQuadIndexed vertices indices x y w h u0 v0 u1 v1)) ∧
    (∀ qs : List (QuadArgs F),
      (addQuads qs).1.length % 5 = 0 ∧
      ∀ i ∈ (addQuads qs).2, i < (addQuads qs).1.length / 5) :=
  ⟨by simp [batchValid], addQuadIndexed_valid, fun qs => addQuads_valid qs⟩

/-- C5 at a concrete input: a quad appended to a batch of one vertex that
index 0 references. -/
theorem batchValid_invariant_witness :
    batchValid ([(0 : ℚ), 0, 0, 0, 0], [0]) ∧
    batchValid (addQuadIndexed [(0 : ℚ), 0, 0, 0, 0] [0] 2 3 4 5 0 0 1 1) :=
  ⟨by decide,
   batchValid_invariant.2.1 [(0 : ℚ), 0, 0, 0, 0] [0] 2 3 4 5 0 0 1 1 (by decide)⟩

/-! ## Rounding to binary32 -/

theorem expo_upper (fuel n : Nat) (h : F32.expo fuel n < fuel) :
    n < 2 ^ (F32.expo fuel n + 24) := by
  induction fuel generalizing n with
  | zero => omega
  | succ f ih =>
    rw [F32.expo] at h ⊢
    split
    · next hlt => simpa using hlt
    · next hge =>
      rw [if_neg hge] at h
      have h1 := ih (n / 2) (by omega)
      have h2 : 2 ^ (F32.expo f (n / 2) + 1 + 24) = 2 * 2 ^ (F32.expo f (n / 2) + 24) := by ring
      rw [h2]
      omega

theorem expo_lower (fuel n : Nat) (h : F32.expo fuel n ≠ 0) :
    2 ^ (F32.expo fuel n + 23) ≤ n := by
  induction fuel generalizing n with
  | zero => simp [F32.expo] at h
  | succ f ih =>
    rw [F32.expo] at h ⊢
    split
    · next hlt => rw [if_pos hlt] at h; exact absurd rfl h
    · next hge =>
      by_cases h0 : F32.expo f (n / 2) = 0
      · rw [h0]
        norm_num
        omega
      · have h1 := ih (n / 2) h0
        have h2 : 2 ^ (F32.expo f (n / 2) + 1 + 23) = 2 * 2 ^ (F32.expo f (n / 2) + 23) := by
          ring
        rw [h2]
        omega

theorem expo_small (fuel n : Nat) (h : n < 16777216) : F32.expo fuel n = 0 := by
  cases fuel with
  | zero => rfl
  | succ f => rw [F32.expo, if_pos h]

theorem expo_mul_pow (a k fuel : Nat) (ha : 8388608 ≤ a) (ha' : a < 16777216) (hk : k ≤ fuel) :
    F32.expo fuel (a * 2 ^ k) = k := by
  induction k generalizing fuel with
  | zero => simpa using expo_small fuel a ha'
  | succ k ih =>
    cases fuel with
    | zero => omega
    | succ f =>
      have hbig : ¬ a * 2 ^ (k + 1) < 16777216 := by
        have : 2 ≤ 2 ^ (k + 1) := by
          calc 2 = 2 ^ 1 := by norm_num
            _ ≤ 2 ^ (k + 1) := Nat.pow_le_pow_right (by norm_num) (by omega)
        nlinarith
      have hhalf : a * 2 ^ (k + 1) / 2 = a * 2 ^ k := by
        rw [pow_succ, ← mul_assoc]
        exact Nat.mul_div_cancel _ (by norm_num)
      rw [F32.expo, if_neg hbig, hhalf, ih f (by omega)]

theorem pack_sign (s : Bool) (m e : Nat) : (F32.pack s m e).sign = s := by
  unfold F32.pack
  split
  · rfl
  · split
    · split <;> rfl
    · split <;> rfl

theorem pack_not_nan (s : Bool) (m e : Nat) : (F32.pack s m e).isNaN = false := by
  unfold F32.pack
  split
  · simp [F32.isNaN, Fin.ofNat]
  · split
    · split
      · simp [F32.isNaN, F32.inf]
      · simp [F32.isNaN]
    · split
      · simp [F32.isNaN, F32.inf]
      · next h =>
        have h3 : (e + 1) % (255 + 1) = e + 1 := Nat.mod_eq_of_lt (by omega)
        simp only [F32.isNaN, Fin.ofNat, h3]
        have : (e + 1 == 255) = false := by simp; omega
        simp [this]

theorem fin_ofNat_exp (a : Nat) (h : a < 256) : (Fin.ofNat a : Fin 256).val = a :=
  Nat.mod_eq_of_lt h

theorem fin_ofNat_man (a : Nat) (h : a < 8388608) : (Fin.ofNat a : Fin 8388608).val = a :=
  Nat.mod_eq_of_lt h

theorem inf_not_finite (s : Bool) : (F32.inf s).isFinite = false := rfl

theorem pack_mag (s : Bool) (m e : Nat) (hm : m ≤ 16777216) (hsub : m < 8388608 → e = 0)
    (hfin : (F32.pack s m e).isFinite = true) : (F32.pack s m e).mag = m * 2 ^ e := by
  unfold F32.pack at hfin ⊢
  split at hfin
  · next h =>
    rw [if_pos h]
    unfold F32.mag
    dsimp only
    rw [fin_ofNat_man m h, hsub h]
    simp
  · next h =>
    rw [if_neg h]
    split at hfin
    · next h16 =>
      rw [if_pos h16]
      split at hfin
      · rw [inf_not_finite] at hfin; exact absurd hfin (by decide)
      · next he =>
        rw [if_neg he]
        unfold F32.mag
        dsimp only
        rw [fin_ofNat_exp (e + 2) (by omega), if_neg (by omega), h16]
        have : e + 2 - 1 = e + 1 := by omega
        rw [this, pow_succ]
        show (8388608 + 0) * (2 ^ e * 2) = 16777216 * 2 ^ e
        ring
    · next h16 =>
      rw [if_neg h16]
      split at hfin
      · rw [inf_not_finite] at hfin; exact absurd hfin (by decide)
      · next he =>
        rw [if_neg he]
        unfold F32.mag
        dsimp only
        rw [fin_ofNat_exp (e + 1) (by omega), fin_ofNat_man (m - 8388608) (by omega),
          if_neg (by omega)]
        have h1 : e + 1 - 1 = e := by omega
        have h2 : 8388608 + (m - 8388608) = m := by omega
        rw [h1, h2]

theorem roundSig_err (N D : Nat) (hD : 0 < D) :
    2 * ((F32.roundSig N D * D : Int) - N).natAbs ≤ D := by
  have hdm := Nat.div_add_mod N D
  have hr := Nat.mod_lt N hD
  unfold F32.roundSig
  simp only
  split
  · next h =>
    have e1 : (((N / D + 1) * D : Nat) : Int) - N = ((D - N % D : Nat) : Int) := by
      have : (N / D + 1) * D = N + (D - N % D) := by
        rw [Nat.add_mul, Nat.mul_comm (N / D) D]; omega
      rw [this]; push_cast; ring
    have e2 : (((N / D + 1 : Nat) : Int) * (D : Int)) = (((N / D + 1) * D : Nat) : Int) := by
      push_cast; ring
    rw [e2, e1, Int.natAbs_ofNat]
    omega
  · next h =>
    have e1 : ((N / D : Nat) : Int) * (D : Int) - N = -((N % D : Nat) : Int) := by
      have : (N : Int) = ((D * (N / D) + N % D : Nat) : Int) := by rw [hdm]
      rw [this]; push_cast; ring
    rw [e1, Int.natAbs_neg, Int.natAbs_ofNat]
    omega

theorem roundSig_exact (N D : Nat) (h : N % D = 0) : F32.roundSig N D = N / D := by
  unfold F32.roundSig
  simp only [h]
  rw [if_neg]
  rintro (h1 | ⟨h2, h3⟩)
  · omega
  · have : D = 0 := by omega
    subst this
    simp at h3

theorem roundSig_le (N D : Nat) : F32.roundSig N D ≤ N / D + 1 := by
  unfold F32.roundSig
  simp only
  split <;> omega

theorem roundSig_ge (N D : Nat) : N / D ≤ F32.roundSig N D := by
  unfold F32.roundSig
  simp only
  split <;> omega

theorem pack_finite_exp (s : Bool) (m e : Nat) (hm : 8388608 ≤ m)
    (hfin : (F32.pack s m e).isFinite = true) : e < 254 := by
  unfold F32.pack at hfin
  rw [if_neg (by omega)] at hfin
  split at hfin
  · split at hfin
    · rw [inf_not_finite] at hfin; exact absurd hfin (by decide)
    · omega
  · split at hfin
    · rw [inf_not_finite] at hfin; exact absurd hfin (by decide)
    · omega

theorem round_sign (s : Bool) (N D : Nat) : (F32.round s N D).sign = s :=
  pack_sign _ _ _

theorem round_not_nan (s : Bool) (N D : Nat) : (F32.round s N D).isNaN = false :=
  pack_not_nan _ _ _

theorem div_scaled (N D e : Nat) : N / (D * 2 ^ e) = N / D / 2 ^ e :=
  (Nat.div_div_eq_div_mul N D (2 ^ e)).symm

theorem round_sig_lower (N D : Nat) (he : F32.expo 300 (N / D) ≠ 0) :
    8388608 ≤ F32.roundSig N (D * 2 ^ F32.expo 300 (N / D)) := by
  have h1 := expo_lower 300 (N / D) he
  have h2 : 8388608 ≤ N / (D * 2 ^ F32.expo 300 (N / D)) := by
    rw [div_scaled, Nat.le_div_iff_mul_le (by positivity)]
    calc 8388608 * 2 ^ F32.expo 300 (N / D) = 2 ^ (F32.expo 300 (N / D) + 23) := by
          rw [pow_add]; norm_num; ring
      _ ≤ N / D := h1
  exact le_trans h2 (roundSig_ge _ _)

theorem round_sig_upper (N D : Nat) (he : F32.expo 300 (N / D) < 300) :
    F32.roundSig N (D * 2 ^ F32.expo 300 (N / D)) ≤ 16777216 := by
  have h1 := expo_upper 300 (N / D) he
  have h2 : N / (D * 2 ^ F32.expo 300 (N / D)) < 16777216 := by
    rw [div_scaled, Nat.div_lt_iff_lt_mul (by positivity)]
    calc N / D < 2 ^ (F32.expo 300 (N / D) + 24) := h1
      _ = 16777216 * 2 ^ F32.expo 300 (N / D) := by rw [pow_add]; norm_num; ring
  have := roundSig_le N (D * 2 ^ F32.expo 300 (N / D))
  omega

/-- The magnitude of a finite rounded value is the rounded significand at the
exponent of the rounding. -/
theorem round_mag (s : Bool) (N D : Nat) (hfin : (F32.round s N D).isFinite = true) :
    (F32.round s N D).mag =
      F32.roundSig N (D * 2 ^ F32.expo 300 (N / D)) * 2 ^ F32.expo 300 (N / D) := by
  unfold F32.round at hfin ⊢
  simp only at hfin ⊢
  have hsub : F32.roundSig N (D * 2 ^ F32.expo 300 (N / D)) < 8388608 →
      F32.expo 300 (N / D) = 0 := by
    intro h
    by_contra he
    have := round_sig_lower N D he
    omega
  have hlt : F32.expo 300 (N / D) < 300 := by
    by_cases he : F32.expo 300 (N / D) = 0
    · omega
    · have := pack_finite_exp _ _ _ (round_sig_lower N D he) hfin
      omega
  exact pack_mag _ _ _ (round_sig_upper N D hlt) hsub hfin

/-- The rounding error is at most half a unit in the last place. -/
theorem round_half_ulp (s : Bool) (N D : Nat) (hD : 0 < D)
    (hfin : (F32.round s N D).isFinite = true) :
    2 * |((F32.round s N D).mag : Int) * D - N| ≤ D * 2 ^ F32.expo 300 (N / D) := by
  have h := roundSig_err N (D * 2 ^ F32.expo 300 (N / D)) (by positivity)
  rw [round_mag s N D hfin]
  zify at h
  have e : ((F32.roundSig N (D * 2 ^ F32.expo 300 (N / D)) * 2 ^ F32.expo 300 (N / D) : Nat) : Int)
      * D - N = (F32.roundSig N (D * 2 ^ F32.expo 300 (N / D)) : Int) *
        ((D : Int) * 2 ^ F32.expo 300 (N / D)) - N := by
    push_cast; ring
  rw [e]
  exact h

theorem round_scale (N D : Nat) (hD : 0 < D) (he : F32.expo 300 (N / D) ≠ 0) :
    D * 2 ^ F32.expo 300 (N / D) * 8388608 ≤ N := by
  have h1 := expo_lower 300 (N / D) he
  have h2 := (Nat.le_div_iff_mul_le hD).1 h1
  calc D * 2 ^ F32.expo 300 (N / D) * 8388608 = 2 ^ (F32.expo 300 (N / D) + 23) * D := by
        rw [pow_add]; norm_num; ring
    _ ≤ N := h2

/-- Rounding an integer: the relative error is at most `2 ^ (-24)`. -/
theorem round_int_error (s : Bool) (N : Nat) (hfin : (F32.round s N 1).isFinite = true) :
    16777216 * |((F32.round s N 1).mag : Int) - N| ≤ N := by
  by_cases he : F32.expo 300 (N / 1) = 0
  · have hm := round_mag s N 1 hfin
    rw [he] at hm
    simp only [pow_zero, mul_one] at hm
    rw [roundSig_exact N 1 (Nat.mod_one N), Nat.div_one] at hm
    rw [hm]
    simp
  · have h1 := round_half_ulp s N 1 (by norm_num) hfin
    have h2 := round_scale N 1 (by norm_num) he
    simp only [Nat.cast_one, mul_one, one_mul] at h1
    zify at h2
    simp only [one_mul] at h2
    nlinarith [abs_nonneg (((F32.round s N 1).mag : Int) - N)]

/-- Rounding a quotient: the error is at most `2 ^ (-24)` of the value, or half
a unit of the subnormal grid. -/
theorem round_quot_error (s : Bool) (N D : Nat) (hD : 0 < D)
    (hfin : (F32.round s N D).isFinite = true) :
    16777216 * |((F32.round s N D).mag : Int) * D - N| ≤ N + 8388608 * D := by
  have h1 := round_half_ulp s N D hD hfin
  by_cases he : F32.expo 300 (N / D) = 0
  · rw [he] at h1
    simp only [pow_zero, mul_one] at h1
    have : (0 : Int) ≤ N := Int.natCast_nonneg N
    linarith
  · have h2 := round_scale N D hD he
    zify at h2
    have : (0 : Int) ≤ D := Int.natCast_nonneg D
    nlinarith [abs_nonneg (((F32.round s N D).mag : Int) * D - N)]

/-! ## Errors of the float operations -/

theorem finite_not_nan (x : F32) (h : x.isFinite = true) : x.isNaN = false := by
  simp only [F32.isFinite, F32.isNaN] at h ⊢
  simp only [bne_iff_ne, ne_eq] at h
  simp [h]

theorem finite_not_inf (x : F32) (h : x.isFinite = true) : x.isInf = false := by
  simp only [F32.isFinite, F32.isInf] at h ⊢
  simp only [bne_iff_ne, ne_eq] at h
  simp [h]

theorem neg_finite (x : F32) : (F32.neg x).isFinite = x.isFinite := rfl

theorem neg_toInt (x : F32) : (F32.neg x).toInt = -x.toInt := by
  unfold F32.toInt F32.neg F32.mag
  cases x.sign <;> simp

theorem toRat_neg (x : F32) : (F32.neg x).toRat = -x.toRat := by
  unfold F32.toRat
  rw [neg_toInt]
  push_cast
  ring

theorem add_def (a b : F32) : a + b = F32.add a b := rfl

theorem sub_def (a b : F32) : a - b = F32.add a (F32.neg b) := rfl

theorem mul_def (a b : F32) : a * b = F32.mul a b := rfl

theorem zero_toInt (s : Bool) : (F32.zero s).toInt = 0 := by
  cases s <;> rfl

theorem add_finite (a b : F32) (ha : a.isFinite = true) (hb : b.isFinite = true) :
    F32.add a b =
      if a.toInt + b.toInt = 0 then F32.zero (a.sign && b.sign)
      else F32.round (decide (a.toInt + b.toInt < 0)) (a.toInt + b.toInt).natAbs 1 := by
  unfold F32.add
  simp [finite_not_nan a ha, finite_not_nan b hb, finite_not_inf a ha, finite_not_inf b hb]

theorem round_toInt (s : Bool) (N D : Nat) :
    (F32.round s N D).toInt =
      if s then -((F32.round s N D).mag : Int) else ((F32.round s N D).mag : Int) := by
  unfold F32.toInt
  rw [round_sign]

/-- The error of a float addition with a finite result is at most `2 ^ (-24)`
of the exact sum (in units of `2 ^ (-149)`). -/
theorem add_error_int (a b : F32) (ha : a.isFinite = true) (hb : b.isFinite = true)
    (hfin : (F32.add a b).isFinite = true) :
    16777216 * |(F32.add a b).toInt - (a.toInt + b.toInt)| ≤ |a.toInt + b.toInt| := by
  rw [add_finite a b ha hb] at hfin ⊢
  by_cases hz : a.toInt + b.toInt = 0
  · rw [if_pos hz, hz, zero_toInt]
    simp
  · rw [if_neg hz] at hfin ⊢
    have h := round_int_error _ _ hfin
    rw [round_toInt]
    by_cases hneg : a.toInt + b.toInt < 0
    · have e : ((a.toInt + b.toInt).natAbs : Int) = -(a.toInt + b.toInt) := by
        rw [Int.natCast_natAbs, abs_of_neg hneg]
      rw [e] at h
      simp only [hneg, decide_True, if_true] at h ⊢
      rw [abs_of_neg hneg]
      have e2 : -((F32.round true (a.toInt + b.toInt).natAbs 1).mag : Int) - (a.toInt + b.toInt)
          = -(((F32.round true (a.toInt + b.toInt).natAbs 1).mag : Int) - -(a.toInt + b.toInt)) := by
        ring
      rw [e2, abs_neg]
      exact h
    · have hpos : 0 ≤ a.toInt + b.toInt := by omega
      have e : ((a.toInt + b.toInt).natAbs : Int) = a.toInt + b.toInt := by
        rw [Int.natCast_natAbs, abs_of_nonneg hpos]
      rw [e] at h
      simp only [hneg, decide_False, Bool.false_eq_true, if_false] at h ⊢
      rw [abs_of_nonneg hpos]
      exact h

theorem mul_finite (a b : F32) (ha : a.isFinite = true) (hb : b.isFinite = true) :
    F32.mul a b = F32.round (a.sign != b.sign) (a.mag * b.mag) (2 ^ 149) := by
  unfold F32.mul
  simp [finite_not_nan a ha, finite_not_nan b hb, finite_not_inf a ha, finite_not_inf b hb]

theorem toInt_mul_toInt (a b : F32) :
    a.toInt * b.toInt =
      if (a.sign != b.sign) then -((a.mag * b.mag : Nat) : Int) else ((a.mag * b.mag : Nat) : Int) := by
  unfold F32.toInt
  cases a.sign <;> cases b.sign <;> simp

theorem round_signed_error (s : Bool) (N D : Nat) (hD : 0 < D)
    (hfin : (F32.round s N D).isFinite = true) :
    16777216 * |(F32.round s N D).toInt * (D : Int) - (if s then -(N : Int) else (N : Int))|
      ≤ (N : Int) + 8388608 * (D : Int) := by
  have h := round_quot_error s N D hD hfin
  rw [round_toInt]
  cases s
  · simp only [Bool.false_eq_true, if_false]
    exact h
  · simp only [if_true]
    have e : -((F32.round true N D).mag : Int) * (D : Int) - -(N : Int)
        = -(((F32.round true N D).mag : Int) * (D : Int) - (N : Int)) := by ring
    rw [e, abs_neg]
    exact h

/-- The error of a float multiplication with a finite result is at most
`2 ^ (-24)` of the exact product plus half a unit of the subnormal grid (the
product is in units of `2 ^ (-298)`). -/
theorem mul_error_int (a b : F32) (ha : a.isFinite = true) (hb : b.isFinite = true)
    (hfin : (F32.mul a b).isFinite = true) :
    16777216 * |(F32.mul a b).toInt * ((2 ^ 149 : Nat) : Int) - a.toInt * b.toInt|
      ≤ |a.toInt * b.toInt| + 8388608 * ((2 ^ 149 : Nat) : Int) := by
  rw [mul_finite a b ha hb] at hfin ⊢
  have h := round_signed_error _ _ _ (by positivity : 0 < 2 ^ 149) hfin
  have habs : |a.toInt * b.toInt| = ((a.mag * b.mag : Nat) : Int) := by
    rw [toInt_mul_toInt]
    split
    · rw [abs_neg, abs_of_nonneg (Int.natCast_nonneg _)]
    · rw [abs_of_nonneg (Int.natCast_nonneg _)]
  rw [habs, toInt_mul_toInt]
  exact h

theorem add_error (a b : F32) (ha : a.isFinite = true) (hb : b.isFinite = true)
    (hfin : (a + b).isFinite = true) :
    |(a + b).toRat - (a.toRat + b.toRat)| ≤ |a.toRat + b.toRat| / 2 ^ 24 := by
  have h := add_error_int a b ha hb hfin
  have hq : ((16777216 * |(F32.add a b).toInt - (a.toInt + b.toInt)| : Int) : ℚ)
      ≤ ((|a.toInt + b.toInt| : Int) : ℚ) := by exact_mod_cast h
  push_cast at hq
  rw [add_def]
  unfold F32.toRat
  have e1 : ((F32.add a b).toInt : ℚ) / 2 ^ 149 - ((a.toInt : ℚ) / 2 ^ 149 + (b.toInt : ℚ) / 2 ^ 149)
      = (((F32.add a b).toInt : ℚ) - (a.toInt + b.toInt)) / 2 ^ 149 := by ring
  have e2 : (a.toInt : ℚ) / 2 ^ 149 + (b.toInt : ℚ) / 2 ^ 149
      = ((a.toInt : ℚ) + b.toInt) / 2 ^ 149 := by ring
  rw [e1, e2, abs_div, abs_div, abs_of_pos (by positivity : (0 : ℚ) < 2 ^ 149)]
  rw [div_div, div_le_div_iff₀ (by positivity) (by positivity)]
  have hp : (0 : ℚ) < 2 ^ 149 := by positivity
  nlinarith [abs_nonneg (((F32.add a b).toInt : ℚ) - (a.toInt + b.toInt))]

theorem sub_error (a b : F32) (ha : a.isFinite = true) (hb : b.isFinite = true)
    (hfin : (a - b).isFinite = true) :
    |(a - b).toRat - (a.toRat - b.toRat)| ≤ |a.toRat - b.toRat| / 2 ^ 24 := by
  have h := add_error a (F32.neg b) ha (by rw [neg_finite]; exact hb) hfin
  rw [toRat_neg] at h
  have e : a.toRat - b.toRat = a.toRat + -b.toRat := by ring
  rw [e]
  exact h

theorem mul_error (a b : F32) (ha : a.isFinite = true) (hb : b.isFinite = true)
    (hfin : (a * b).isFinite = true) :
    |(a * b).toRat - a.toRat * b.toRat| ≤ |a.toRat * b.toRat| / 2 ^ 24 + 1 / 2 ^ 150 := by
  have h := mul_error_int a b ha hb hfin
  have hP : (((2 ^ 149 : Nat) : Int) : ℚ) = (2 : ℚ) ^ 149 := by norm_cast
  have hq : (16777216 : ℚ) * |((F32.mul a b).toInt : ℚ) * (((2 ^ 149 : Nat) : Int) : ℚ)
      - (a.toInt : ℚ) * (b.toInt : ℚ)|
      ≤ |(a.toInt : ℚ) * (b.toInt : ℚ)| + 8388608 * (((2 ^ 149 : Nat) : Int) : ℚ) := by
    have := (Int.cast_le (R := ℚ)).2 h
    simpa only [Int.cast_mul, Int.cast_abs, Int.cast_sub, Int.cast_add, Int.cast_ofNat] using this
  rw [hP] at hq
  rw [mul_def]
  unfold F32.toRat
  have h150 : (2 : ℚ) ^ 150 = 2 * 2 ^ 149 := by rw [pow_succ]; ring
  have h24 : (2 : ℚ) ^ 24 = 16777216 := by norm_num
  rw [h150, h24]
  have hp : (0 : ℚ) < 2 ^ 149 := by positivity
  generalize (2 : ℚ) ^ 149 = P at hq hp ⊢
  generalize ((F32.mul a b).toInt : ℚ) = r at hq ⊢
  generalize (a.toInt : ℚ) = x at hq ⊢
  generalize (b.toInt : ℚ) = y at hq ⊢
  have hpp : (0 : ℚ) < P * P := mul_pos hp hp
  have e1 : r / P - x / P * (y / P) = (r * P - x * y) / (P * P) := by
    field_simp
    ring
  have e2 : x / P * (y / P) = (x * y) / (P * P) := by field_simp
  rw [e1, e2, abs_div, abs_div, abs_of_pos hpp]
  have e3 : |x * y| / (P * P) / 16777216 + 1 / (2 * P)
      = (|x * y| + 8388608 * P) * P / (16777216 * (P * P) * P) := by
    field_simp
    ring
  rw [e3, div_le_div_iff₀ hpp (mul_pos (mul_pos (by norm_num) hpp) hp)]
  have h0 := abs_nonneg (r * P - x * y)
  have h1 : |r * P - x * y| * (16777216 * (P * P) * P)
      = (16777216 * |r * P - x * y|) * (P * P * P) := by ring
  have h2 : (|x * y| + 8388608 * P) * P * (P * P) = (|x * y| + 8388608 * P) * (P * P * P) := by
    ring
  rw [h1, h2]
  exact mul_le_mul_of_nonneg_right hq (le_of_lt (mul_pos hpp hp))

/-! ## Rounding error of the camera update -/

theorem frameTolerance_nonneg (c X last : F32) (t : ℚ) : 0 ≤ frameTolerance c X last t := by
  unfold frameTolerance
  positivity

/-- The float product `cameraSpeed * deltaTime` against the exact product of
the speed with the exact time difference, and with the float `deltaTime`. -/
theorem product_error (c last : F32) (t : ℚ)
    (hc : c.isFinite = true) (hl : last.isFinite = true)
    (ht : (F32.ofRat t).isFinite = true) (hd : (F32.ofRat t - last).isFinite = true)
    (hp : (c * (F32.ofRat t - last)).isFinite = true) :
    |(c * (F32.ofRat t - last)).toRat - c.toRat * ((F32.ofRat t).toRat - last.toRat)|
      ≤ (|c.toRat * (F32.ofRat t - last).toRat|
          + |c.toRat * ((F32.ofRat t).toRat - last.toRat)|) / 2 ^ 24 + 1 / 2 ^ 150 ∧
    |(c * (F32.ofRat t - last)).toRat - c.toRat * (F32.ofRat t - last).toRat|
      ≤ (|c.toRat * (F32.ofRat t - last).toRat|
          + |c.toRat * ((F32.ofRat t).toRat - last.toRat)|) / 2 ^ 24 + 1 / 2 ^ 150 := by
  have h2 := mul_error c (F32.ofRat t - last) hc hd hp
  have h3 := sub_error (F32.ofRat t) last ht hl hd
  have h24 : (2 : ℚ) ^ 24 = 16777216 := by norm_num
  rw [h24] at h2 h3 ⊢
  generalize (1 : ℚ) / 2 ^ 150 = η at h2 ⊢
  generalize (c * (F32.ofRat t - last)).toRat = p at h2 ⊢
  generalize (F32.ofRat t - last).toRat = d at h2 h3 ⊢
  generalize (F32.ofRat t).toRat - last.toRat = δ at h3 ⊢
  generalize c.toRat = cq at h2 ⊢
  have e2 : |cq * d - cq * δ| ≤ |cq * δ| / 16777216 := by
    rw [← mul_sub, abs_mul, abs_mul, mul_div_assoc]
    exact mul_le_mul_of_nonneg_left h3 (abs_nonneg cq)
  have a2 := abs_le.1 h2
  have a3 := abs_le.1 e2
  have n1 := abs_nonneg (cq * δ)
  have n2 := abs_nonneg (cq * d)
  constructor
  · rw [abs_le]
    constructor <;> linarith [a2.1, a2.2, a3.1, a3.2]
  · rw [abs_le]
    constructor <;> linarith [a2.1, a2.2, a3.1, a3.2]

/-- One axis of one frame: the coordinate `X` is left alone, increased or
decreased by the float product `p` that stands for the exact step `e`. -/
theorem axis_step_error (X p : F32) (e tol : ℚ) (hX : X.isFinite = true)
    (hp : p.isFinite = true) (he : |p.toRat - e| ≤ tol) :
    ((X + p).isFinite = true →
      |(X + p).toRat - (X.toRat + e)| ≤ (|X.toRat| + |p.toRat|) / 2 ^ 24 + tol) ∧
    ((X - p).isFinite = true →
      |(X - p).toRat - (X.toRat - e)| ≤ (|X.toRat| + |p.toRat|) / 2 ^ 24 + tol) := by
  have h24 : (2 : ℚ) ^ 24 = 16777216 := by norm_num
  rw [h24]
  constructor
  · intro hr
    have h1 := add_error X p hX hp hr
    rw [h24] at h1
    have e1 : |X.toRat + p.toRat| ≤ |X.toRat| + |p.toRat| := abs_add _ _
    have a1 := abs_le.1 h1
    have a2 := abs_le.1 he
    rw [abs_le]
    constructor <;> linarith [a1.1, a1.2, a2.1, a2.2]
  · intro hr
    have h1 := sub_error X p hX hp hr
    rw [h24] at h1
    have e1 : |X.toRat - p.toRat| ≤ |X.toRat| + |p.toRat| := abs_sub _ _
    have a1 := abs_le.1 h1
    have a2 := abs_le.1 he
    rw [abs_le]
    constructor <;> linarith [a1.1, a1.2, a2.1, a2.2]

theorem axis_frame_error (c cam last : F32) (t : ℚ) (plus minus : Bool) (new : F32)
    (hk : ¬ (plus = true ∧ minus = true))
    (hnew : new = if plus then cam + c * (F32.ofRat t - last)
      else if minus then cam - c * (F32.ofRat t - last) else cam)
    (hc : c.isFinite = true) (hcam : cam.isFinite = true) (hl : last.isFinite = true)
    (ht : (F32.ofRat t).isFinite = true) (hd : (F32.ofRat t - last).isFinite = true)
    (hp : (c * (F32.ofRat t - last)).isFinite = true) (hfin : new.isFinite = true) :
    |new.toRat - (cam.toRat + ((if plus then 1 else 0) - (if minus then 1 else 0))
        * (c.toRat * ((F32.ofRat t).toRat - last.toRat)))|
      ≤ frameTolerance c cam last t ∧
    |new.toRat - (cam.toRat + ((if plus then 1 else 0) - (if minus then 1 else 0))
        * (c.toRat * (F32.ofRat t - last).toRat))|
      ≤ frameTolerance c cam last t := by
  obtain ⟨hp1, hp2⟩ := product_error c last t hc hl ht hd hp
  have hs1 := axis_step_error cam (c * (F32.ofRat t - last)) _ _ hcam hp hp1
  have hs2 := axis_step_error cam (c * (F32.ofRat t - last)) _ _ hcam hp hp2
  have htol : ∀ e : ℚ, (|cam.toRat| + |(c * (F32.ofRat t - last)).toRat|) / 2 ^ 24
      + ((|c.toRat * (F32.ofRat t - last).toRat|
          + |c.toRat * ((F32.ofRat t).toRat - last.toRat)|) / 2 ^ 24 + 1 / 2 ^ 150)
      = frameTolerance c cam last t := by
    intro _
    unfold frameTolerance
    ring
  rw [htol 0] at hs1 hs2
  cases plus
  · cases minus
    · simp only [Bool.false_eq_true, if_false] at hnew ⊢
      rw [hnew]
      simp only [sub_zero, zero_mul, add_zero, sub_self, abs_zero]
      exact ⟨frameTolerance_nonneg _ _ _ _, frameTolerance_nonneg _ _ _ _⟩
    · simp only [Bool.false_eq_true, if_false, if_true] at hnew ⊢
      rw [hnew] at hfin ⊢
      have e : ∀ z : ℚ, cam.toRat + (0 - 1) * z = cam.toRat - z := by intro z; ring
      rw [e, e]
      exact ⟨hs1.2 hfin, hs2.2 hfin⟩
  · cases minus
    · simp only [Bool.false_eq_true, if_false, if_true] at hnew ⊢
      rw [hnew] at hfin ⊢
      have e : ∀ z : ℚ, cam.toRat + (1 - 0) * z = cam.toRat + z := by intro z; ring
      rw [e, e]
      exact ⟨hs1.1 hfin, hs2.1 hfin⟩
    · exact absurd ⟨rfl, rfl⟩ hk

theorem updateCamera_lastFrame (c : F32) (s : FrameState) (inp : FrameInput) :
    (updateCamera c s inp).lastFrame = F32.ofRat inp.time := rfl

theorem updateCamera_cameraX (c : F32) (s : FrameState) (inp : FrameInput) :
    (updateCamera c s inp).cameraX =
      if inp.keys.keyD then
        (if inp.keys.keyA then s.cameraX - c * (F32.ofRat inp.time - s.lastFrame)
          else s.cameraX) + c * (F32.ofRat inp.time - s.lastFrame)
      else
        (if inp.keys.keyA then s.cameraX - c * (F32.ofRat inp.time - s.lastFrame)
          else s.cameraX) := rfl

theorem updateCamera_cameraY (c : F32) (s : FrameState) (inp : FrameInput) :
    (updateCamera c s inp).cameraY =
      if inp.keys.keyS then
        (if inp.keys.keyW then s.cameraY + c * (F32.ofRat inp.time - s.lastFrame)
          else s.cameraY) - c * (F32.ofRat inp.time - s.lastFrame)
      else
        (if inp.keys.keyW then s.cameraY + c * (F32.ofRat inp.time - s.lastFrame)
          else s.cameraY) := rfl

theorem stateFinite_iff (s : FrameState) :
    stateFinite s = true ↔
      s.cameraX.isFinite = true ∧ s.cameraY.isFinite = true ∧ s.lastFrame.isFinite = true := by
  unfold stateFinite
  simp only [Bool.and_eq_true]
  constructor
  · rintro ⟨⟨a, b⟩, c⟩; exact ⟨a, b, c⟩
  · rintro ⟨a, b, c⟩; exact ⟨⟨a, b⟩, c⟩

theorem frameFinite_iff (c : F32) (s : FrameState) (inp : FrameInput) :
    frameFinite c s inp = true ↔
      (F32.ofRat inp.time).isFinite = true ∧
      (F32.ofRat inp.time - s.lastFrame).isFinite = true ∧
      (c * (F32.ofRat inp.time - s.lastFrame)).isFinite = true ∧
      (updateCamera c s inp).cameraX.isFinite = true ∧
      (updateCamera c s inp).cameraY.isFinite = true := by
  unfold frameFinite
  simp only [Bool.and_eq_true]
  constructor
  · rintro ⟨⟨⟨⟨a, b⟩, c⟩, d⟩, e⟩; exact ⟨a, b, c, d, e⟩
  · rintro ⟨a, b, c, d, e⟩; exact ⟨⟨⟨⟨a, b⟩, c⟩, d⟩, e⟩

theorem frameFinite_state (c : F32) (s : FrameState) (inp : FrameInput)
    (hf : frameFinite c s inp = true) : stateFinite (updateCamera c s inp) = true := by
  obtain ⟨h1, _, _, h4, h5⟩ := (frameFinite_iff c s inp).1 hf
  exact (stateFinite_iff _).2 ⟨h4, h5, h1⟩

/-- One frame moves `cameraX` by the direction of the held keys times the speed
times the elapsed time, up to the rounding tolerance of the frame. -/
theorem frame_error_X (c : F32) (s : FrameState) (inp : FrameInput)
    (hk : ¬ (inp.keys.keyD = true ∧ inp.keys.keyA = true))
    (hc : c.isFinite = true) (hs : stateFinite s = true) (hf : frameFinite c s inp = true) :
    |(updateCamera c s inp).cameraX.toRat - (s.cameraX.toRat + dirX inp.keys
        * (c.toRat * ((F32.ofRat inp.time).toRat - s.lastFrame.toRat)))|
      ≤ frameTolerance c s.cameraX s.lastFrame inp.time ∧
    |(updateCamera c s inp).cameraX.toRat - (s.cameraX.toRat + dirX inp.keys
        * (c.toRat * (F32.ofRat inp.time - s.lastFrame).toRat))|
      ≤ frameTolerance c s.cameraX s.lastFrame inp.time := by
  obtain ⟨hX, _, hl⟩ := (stateFinite_iff s).1 hs
  obtain ⟨ht, hd, hp, hnX, _⟩ := (frameFinite_iff c s inp).1 hf
  refine axis_frame_error c s.cameraX s.lastFrame inp.time inp.keys.keyD inp.keys.keyA _ hk ?_
    hc hX hl ht hd hp hnX
  rw [updateCamera_cameraX]
  cases hD : inp.keys.keyD <;> cases hA : inp.keys.keyA <;> simp
  exact absurd ⟨hD, hA⟩ hk

/-- One frame moves `cameraY` by the direction of the held keys times the speed
times the elapsed time, up to the rounding tolerance of the frame. -/
theorem frame_error_Y (c : F32) (s : FrameState) (inp : FrameInput)
    (hk : ¬ (inp.keys.keyW = true ∧ inp.keys.keyS = true))
    (hc : c.isFinite = true) (hs : stateFinite s = true) (hf : frameFinite c s inp = true) :
    |(updateCamera c s inp).cameraY.toRat - (s.cameraY.toRat + dirY inp.keys
        * (c.toRat * ((F32.ofRat inp.time).toRat - s.lastFrame.toRat)))|
      ≤ frameTolerance c s.cameraY s.lastFrame inp.time ∧
    |(updateCamera c s inp).cameraY.toRat - (s.cameraY.toRat + dirY inp.keys
        * (c.toRat * (F32.ofRat inp.time - s.lastFrame).toRat))|
      ≤ frameTolerance c s.cameraY s.lastFrame inp.time := by
  obtain ⟨_, hY, hl⟩ := (stateFinite_iff s).1 hs
  obtain ⟨ht, hd, hp, _, hnY⟩ := (frameFinite_iff c s inp).1 hf
  refine axis_frame_error c s.cameraY s.lastFrame inp.time inp.keys.keyW inp.keys.keyS _ hk ?_
    hc hY hl ht hd hp hnY
  rw [updateCamera_cameraY]
  cases hW : inp.keys.keyW <;> cases hS : inp.keys.keyS <;> simp
  exact absurd ⟨hW, hS⟩ hk

theorem runFrames_cons (c : F32) (s : FrameState) (inp : FrameInput) (rest : List FrameInput) :
    runFrames c s (inp :: rest) = runFrames c (updateCamera c s inp) rest := rfl

theorem heldFrames_cons (keys : Keys) (t : ℚ) (rest : List ℚ) :
    heldFrames keys (t :: rest) = ⟨t, keys⟩ :: heldFrames keys rest := rfl

theorem runFinite_cons (c : F32) (s : FrameState) (inp : FrameInput) (rest : List FrameInput) :
    runFinite c s (inp :: rest) = true ↔
      frameFinite c s inp = true ∧ runFinite c (updateCamera c s inp) rest = true := by
  rw [runFinite, Bool.and_eq_true]

/-- Over successive frames with the same keys held, `cameraX` moves by the
direction of the keys times the speed times the elapsed time (or times the sum
of the `deltaTime` values), up to the accumulated rounding tolerance. -/
theorem run_error_X (c : F32) (keys : Keys) (hk : ¬ (keys.keyD = true ∧ keys.keyA = true))
    (hc : c.isFinite = true) (times : List ℚ) :
    ∀ s : FrameState, stateFinite s = true → runFinite c s (heldFrames keys times) = true →
      |(runFrames c s (heldFrames keys times)).cameraX.toRat - (s.cameraX.toRat + dirX keys
          * (c.toRat * ((runFrames c s (heldFrames keys times)).lastFrame.toRat
            - s.lastFrame.toRat)))|
        ≤ runToleranceX c s (heldFrames keys times) ∧
      |(runFrames c s (heldFrames keys times)).cameraX.toRat - (s.cameraX.toRat + dirX keys
          * (c.toRat * ((frameDeltas c s (heldFrames keys times)).map F32.toRat).sum))|
        ≤ runToleranceX c s (heldFrames keys times) := by
  induction times with
  | nil =>
    intro s _ _
    simp [runFrames, heldFrames, runToleranceX, frameDeltas]
  | cons t rest ih =>
    intro s hs hf
    rw [heldFrames_cons] at hf ⊢
    rw [runFinite_cons] at hf
    obtain ⟨hf1, hf2⟩ := hf
    obtain ⟨i1, i2⟩ := ih (updateCamera c s ⟨t, keys⟩) (frameFinite_state c s _ hf1) hf2
    obtain ⟨f1, f2⟩ := frame_error_X c s ⟨t, keys⟩ hk hc hs hf1
    rw [runFrames_cons, runToleranceX, frameDeltas, List.map_cons, List.sum_cons]
    rw [updateCamera_lastFrame] at i1
    simp only at f1 f2
    have a1 := abs_le.1 i1
    have a2 := abs_le.1 i2
    have b1 := abs_le.1 f1
    have b2 := abs_le.1 f2
    constructor
    · rw [abs_le]
      constructor <;> linarith [a1.1, a1.2, b1.1, b1.2]
    · rw [abs_le]
      constructor <;> linarith [a2.1, a2.2, b2.1, b2.2]

/-- Over successive frames with the same keys held, `cameraY` moves by the
direction of the keys times the speed times the elapsed time (or times the sum
of the `deltaTime` values), up to the accumulated rounding tolerance. -/
theorem run_error_Y (c : F32) (keys : Keys) (hk : ¬ (keys.keyW = true ∧ keys.keyS = true))
    (hc : c.isFinite = true) (times : List ℚ) :
    ∀ s : FrameState, stateFinite s = true → runFinite c s (heldFrames keys times) = true →
      |(runFrames c s (heldFrames keys times)).cameraY.toRat - (s.cameraY.toRat + dirY keys
          * (c.toRat * ((runFrames c s (heldFrames keys times)).lastFrame.toRat
            - s.lastFrame.toRat)))|
        ≤ runToleranceY c s (heldFrames keys times) ∧
      |(runFrames c s (heldFrames keys times)).cameraY.toRat - (s.cameraY.toRat + dirY keys
          * (c.toRat * ((frameDeltas c s (heldFrames keys times)).map F32.toRat).sum))|
        ≤ runToleranceY c s (heldFrames keys times) := by
  induction times with
  | nil =>
    intro s _ _
    simp [runFrames, heldFrames, runToleranceY, frameDeltas]
  | cons t rest ih =>
    intro s hs hf
    rw [heldFrames_cons] at hf ⊢
    rw [runFinite_cons] at hf
    obtain ⟨hf1, hf2⟩ := hf
    obtain ⟨i1, i2⟩ := ih (updateCamera c s ⟨t, keys⟩) (frameFinite_state c s _ hf1) hf2
    obtain ⟨f1, f2⟩ := frame_error_Y c s ⟨t, keys⟩ hk hc hs hf1
    rw [runFrames_cons, runToleranceY, frameDeltas, List.map_cons, List.sum_cons]
    rw [updateCamera_lastFrame] at i1
    simp only at f1 f2
    have a1 := abs_le.1 i1
    have a2 := abs_le.1 i2
    have b1 := abs_le.1 f1
    have b2 := abs_le.1 f2
    constructor
    · rw [abs_le]
      constructor <;> linarith [a1.1, a1.2, b1.1, b1.2]
    · rw [abs_le]
      constructor <;> linarith [a2.1, a2.2, b2.1, b2.2]

/-! ## Exact float operations -/

theorem finite_exp (x : F32) (h : x.isFinite = true) : x.exp.val < 255 := by
  simp only [F32.isFinite, bne_iff_ne, ne_eq] at h
  have := x.exp.isLt
  omega

theorem F32_ext (x : F32) (s : Bool) (e : Fin 256) (m : Fin 8388608)
    (hs : x.sign = s) (he : x.exp = e) (hm : x.man = m) : (⟨s, e, m⟩ : F32) = x := by
  cases x
  simp only at hs he hm
  rw [hs, he, hm]

/-- A finite value is its own rounding. -/
theorem round_mag_self (x : F32) (hx : x.isFinite = true) : F32.round x.sign x.mag 1 = x := by
  have hE := finite_exp x hx
  have hman := x.man.isLt
  unfold F32.round
  simp only [Nat.div_one, one_mul]
  by_cases h0 : x.exp.val = 0
  · have hmag : x.mag = x.man.val := by unfold F32.mag; rw [if_pos h0]
    rw [hmag, expo_small 300 _ (by omega)]
    simp only [pow_zero]
    rw [roundSig_exact _ 1 (Nat.mod_one _), Nat.div_one]
    unfold F32.pack
    rw [if_pos hman]
    apply F32_ext
    · rfl
    · exact (Fin.ext (by rw [h0]; rfl)).symm
    · exact (Fin.ext (fin_ofNat_man _ hman)).symm
  · have hmag : x.mag = (8388608 + x.man.val) * 2 ^ (x.exp.val - 1) := by
      unfold F32.mag; rw [if_neg h0]
    rw [hmag, expo_mul_pow _ _ 300 (by omega) (by omega) (by omega)]
    have hdiv : (8388608 + x.man.val) * 2 ^ (x.exp.val - 1) % 2 ^ (x.exp.val - 1) = 0 :=
      Nat.mul_mod_left _ _
    rw [roundSig_exact _ _ hdiv, Nat.mul_div_cancel _ (by positivity)]
    unfold F32.pack
    rw [if_neg (by omega), if_neg (by omega), if_neg (by omega)]
    apply F32_ext
    · rfl
    · apply Fin.ext
      rw [fin_ofNat_exp _ (by omega)]
      omega
    · apply Fin.ext
      rw [fin_ofNat_man _ (by omega)]
      omega

theorem mag_eq_zero (x : F32) (h : x.mag = 0) :
    x.exp.val = 0 ∧ x.man.val = 0 := by
  unfold F32.mag at h
  by_cases h0 : x.exp.val = 0
  · rw [if_pos h0] at h
    exact ⟨h0, h⟩
  · rw [if_neg h0] at h
    have : 0 < (8388608 + x.man.val) * 2 ^ (x.exp.val - 1) := by positivity
    omega

theorem zero_toInt_neg : (F32.neg 0).toInt = 0 := rfl

theorem neg_zero_not_nan : (F32.neg 0).isNaN = false := rfl

theorem neg_zero_not_inf : (F32.neg 0).isInf = false := rfl

theorem neg_zero_sign : (F32.neg 0).sign = true := rfl

/-- Subtracting `0.0f` changes no value that is not a NaN. -/
theorem sub_zero_eq (x : F32) (hx : x.isNaN = false) : x - 0 = x := by
  rw [sub_def]
  unfold F32.add
  rw [hx, neg_zero_not_nan, neg_zero_not_inf, neg_zero_sign, zero_toInt_neg]
  simp only [Bool.or_false, Bool.false_eq_true, if_false, Bool.false_and, add_zero,
    Bool.and_true]
  by_cases hinf : x.isInf = true
  · rw [if_pos hinf]
  · rw [if_neg hinf]
    have hfin : x.isFinite = true := by
      simp only [F32.isNaN, F32.isInf, F32.isFinite] at hx hinf ⊢
      by_cases h255 : x.exp.val = 255
      · simp [h255] at hx hinf
        exact absurd hx hinf
      · simp [h255]
    by_cases hz : x.toInt = 0
    · rw [if_pos hz]
      have hmag : x.mag = 0 := by
        unfold F32.toInt at hz
        split at hz <;> omega
      obtain ⟨h1, h2⟩ := mag_eq_zero x hmag
      unfold F32.zero
      apply F32_ext
      · rfl
      · exact (Fin.ext (by rw [h1]; rfl)).symm
      · exact (Fin.ext (by rw [h2]; rfl)).symm
    · rw [if_neg hz]
      have hsign : decide (x.toInt < 0) = x.sign := by
        unfold F32.toInt at hz ⊢
        cases hs : x.sign
        · simp
        · simp only [hs, if_true] at hz ⊢
          simp
          omega
      have habs : x.toInt.natAbs = x.mag := by
        unfold F32.toInt
        split <;> simp
      rw [hsign, habs]
      exact round_mag_self x hfin

theorem zero_le_of_sign (r : F32) (hn : r.isNaN = false) (hs : r.sign = false) :
    F32.le 0 r = true := by
  have h0n : (0 : F32).isNaN = false := rfl
  have h0i : (0 : F32).isInf = false := rfl
  have h0t : (0 : F32).toInt = 0 := rfl
  unfold F32.le
  rw [h0n, hn, h0i, h0t, hs]
  simp only [Bool.not_false, Bool.true_and, Bool.false_eq_true, if_false, decide_eq_true_eq]
  split
  · positivity
  · unfold F32.toInt
    rw [hs]
    simp

/-- The float difference of two finite values is `>= 0.0f` when the first is
not below the second. -/
theorem sub_nonneg_of_le (a b : F32) (ha : a.isFinite = true) (hb : b.isFinite = true)
    (hle : F32.le b a = true) : F32.le 0 (a - b) = true := by
  have hz : 0 ≤ a.toInt + (F32.neg b).toInt := by
    unfold F32.le at hle
    rw [finite_not_nan a ha, finite_not_nan b hb, finite_not_inf a ha, finite_not_inf b hb] at hle
    simp only [Bool.not_false, Bool.true_and, Bool.false_eq_true, if_false,
      decide_eq_true_eq] at hle
    rw [neg_toInt]
    omega
  rw [sub_def, add_finite a _ ha (by rw [neg_finite]; exact hb)]
  split
  · cases (a.sign && (F32.neg b).sign) <;> decide
  · apply zero_le_of_sign
    · exact round_not_nan _ _ _
    · rw [round_sign]
      simp
      omega

/-! ## The `deltaTime` values of a run -/

theorem frameDeltas_cons (c : F32) (s : FrameState) (inp : FrameInput)
    (rest : List FrameInput) :
    frameDeltas c s (inp :: rest) =
      (F32.ofRat inp.time - s.lastFrame) :: frameDeltas c (updateCamera c s inp) rest := rfl

theorem stampsFinite_cons (last : F32) (inp : FrameInput) (rest : List FrameInput) :
    stampsFinite last (inp :: rest) = true ↔
      (F32.ofRat inp.time).isFinite = true ∧ (F32.ofRat inp.time - last).isFinite = true ∧
        stampsFinite (F32.ofRat inp.time) rest = true := by
  rw [stampsFinite, Bool.and_eq_true, Bool.and_eq_true]
  constructor
  · rintro ⟨⟨a, b⟩, c⟩; exact ⟨a, b, c⟩
  · rintro ⟨a, b, c⟩; exact ⟨⟨a, b⟩, c⟩

theorem stampsMonotone_cons (last : F32) (inp : FrameInput) (rest : List FrameInput) :
    stampsMonotone last (inp :: rest) = true ↔
      F32.le last (F32.ofRat inp.time) = true ∧
        stampsMonotone (F32.ofRat inp.time) rest = true := by
  rw [stampsMonotone, Bool.and_eq_true]

theorem frameDeltas_nonneg (c : F32) (inputs : List FrameInput) :
    ∀ s : FrameState, s.lastFrame.isFinite = true →
      stampsFinite s.lastFrame inputs = true → stampsMonotone s.lastFrame inputs = true →
      ∀ d ∈ frameDeltas c s inputs, F32.le 0 d = true := by
  induction inputs with
  | nil => intro s _ _ _ d hd; simp [frameDeltas] at hd
  | cons inp rest ih =>
    intro s hl hf hm d hd
    obtain ⟨hf1, _, hf3⟩ := (stampsFinite_cons _ _ _).1 hf
    obtain ⟨hm1, hm2⟩ := (stampsMonotone_cons _ _ _).1 hm
    rw [frameDeltas_cons, List.mem_cons] at hd
    rcases hd with hd | hd
    · rw [hd]
      exact sub_nonneg_of_le _ _ hf1 hl hm1
    · exact ih (updateCamera c s inp) hf1 hf3 hm2 d hd

theorem timeGaps_cons (last : F32) (inp : FrameInput) (rest : List FrameInput) :
    timeGaps last (inp :: rest) =
      ((F32.ofRat inp.time).toRat - last.toRat) :: timeGaps (F32.ofRat inp.time) rest := rfl

theorem timeGaps_sum (pre : List FrameInput) (inp : FrameInput) :
    ∀ last : F32, (timeGaps last (pre ++ [inp])).sum = (F32.ofRat inp.time).toRat - last.toRat := by
  induction pre with
  | nil => intro last; simp [timeGaps]
  | cons a pre ih =>
    intro last
    rw [List.cons_append, timeGaps_cons, List.sum_cons, ih]
    ring

/-- The `deltaTime` values sum, in exact arithmetic, to the sum of the exact
differences of the timestamps up to `2 ^ (-24)` of their magnitudes. -/
theorem frameDeltas_sum_error (c : F32) (inputs : List FrameInput) :
    ∀ s : FrameState, s.lastFrame.isFinite = true →
      stampsFinite s.lastFrame inputs = true →
      |((frameDeltas c s inputs).map F32.toRat).sum - (timeGaps s.lastFrame inputs).sum|
        ≤ ((timeGaps s.lastFrame inputs).map (fun g => |g|)).sum / 2 ^ 24 := by
  induction inputs with
  | nil => intro s _ _; simp [frameDeltas, timeGaps]
  | cons inp rest ih =>
    intro s hl hf
    obtain ⟨hf1, hf2, hf3⟩ := (stampsFinite_cons _ _ _).1 hf
    have h1 := sub_error (F32.ofRat inp.time) s.lastFrame hf1 hl hf2
    have h2 := ih (updateCamera c s inp) hf1 hf3
    rw [updateCamera_lastFrame] at h2
    rw [frameDeltas_cons, timeGaps_cons, List.map_cons, List.sum_cons, List.sum_cons,
      List.map_cons, List.sum_cons, add_div]
    have a1 := abs_le.1 h1
    have a2 := abs_le.1 h2
    rw [abs_le]
    constructor <;> linarith [a1.1, a1.2, a2.1, a2.2]

/-! ## Claim C6: winding -/

theorem runFrames_lastFrame_snoc (c : F32) (s : FrameState) (keys : Keys) (pre : List ℚ)
    (T : ℚ) : (runFrames c s (heldFrames keys (pre ++ [T]))).lastFrame = F32.ofRat T := by
  simp [runFrames, heldFrames, List.foldl_append, updateCamera_lastFrame]

theorem runFrames_cameraY_unchanged (c : F32) (keys : Keys) (hW : keys.keyW = false)
    (hS : keys.keyS = false) (times : List ℚ) :
    ∀ s : FrameState, (runFrames c s (heldFrames keys times)).cameraY = s.cameraY := by
  induction times with
  | nil => intro s; rfl
  | cons t rest ih =>
    intro s
    rw [heldFrames_cons, runFrames_cons, ih, updateCamera_cameraY]
    simp [hW, hS]

theorem mainCameraSpeed_toRat : mainCameraSpeed.toRat = 1 := by
  have : mainCameraSpeed.toInt = 2 ^ 149 := by (set_option maxRecDepth 100000 in decide)
  unfold F32.toRat
  rw [this]
  norm_num

/-- C7, the claim as stated fails: from the initial state with D held, four
frames that end at 2.75 s leave `cameraX` at 11534335/4194304, and one frame at
2.75 s leaves it at 11/4. -/
theorem frame_steps_change_offset :
    (runFrames mainCameraSpeed initialFrameState
        (heldFrames onlyD [29 / 50, 83 / 50, 56 / 25, 11 / 4])).cameraX.toRat
      = 11534335 / 4194304 ∧
    (runFrames mainCameraSpeed initialFrameState (heldFrames onlyD [11 / 4])).cameraX.toRat
      = 11 / 4 := by
  have h1 : F32.ofRat (29 / 50) = ⟨false, 126, 1342177⟩ := by
    unfold F32.ofRat; norm_num; (set_option maxRecDepth 100000 in decide)
  have h2 : F32.ofRat (83 / 50) = ⟨false, 127, 5536481⟩ := by
    unfold F32.ofRat; norm_num; (set_option maxRecDepth 100000 in decide)
  have h3 : F32.ofRat (56 / 25) = ⟨false, 128, 1006633⟩ := by
    unfold F32.ofRat; norm_num; (set_option maxRecDepth 100000 in decide)
  have h4 : F32.ofRat (11 / 4) = ⟨false, 128, 3145728⟩ := by
    unfold F32.ofRat; norm_num; (set_option maxRecDepth 100000 in decide)
  have r1 : (runFrames mainCameraSpeed initialFrameState
      (heldFrames onlyD [29 / 50, 83 / 50, 56 / 25, 11 / 4])).cameraX.toInt
      = 1962465407329511375985911476305752096642170880 := by
    simp only [heldFrames, List.map_cons, List.map_nil, runFrames, List.foldl_cons,
      List.foldl_nil, updateCamera, h1, h2, h3, h4]
    (set_option maxRecDepth 100000 in decide)
  have r2 : (runFrames mainCameraSpeed initialFrameState (heldFrames onlyD [11 / 4])).cameraX.toInt
      = 1962465577470694836455143207993055812526276608 := by
    simp only [heldFrames, List.map_cons, List.map_nil, runFrames, List.foldl_cons,
      List.foldl_nil, updateCamera, h4]
    (set_option maxRecDepth 100000 in decide)
  unfold F32.toRat
  rw [r1, r2]
  constructor <;> norm_num

/-- C7, amended: camera displacement is frame-rate independent up to rounding.
With the same keys held in every frame, no two opposite keys together, a
finite speed and start state and all floats of the run finite, a run of frames
that starts from the state `s` and ends at the timestamp `T` leaves each camera
coordinate within the accumulated
rounding tolerance of that run from the start offset changed by the direction
of the keys times `cameraSpeed` times the elapsed time, in exact arithmetic on
the float timestamps; so two such runs from the same state to the same final
timestamp agree up to the sum of their tolerances. -/
theorem camera_frame_rate_independent (cameraSpeed : F32) (s : FrameState) (keys : Keys)
    (pre1 pre2 : List ℚ) (T : ℚ)
    (hc : cameraSpeed.isFinite = true) (hs : stateFinite s = true)
    (hkx : ¬ (keys.keyD = true ∧ keys.keyA = true))
    (hky : ¬ (keys.keyW = true ∧ keys.keyS = true))
    (hf1 : runFinite cameraSpeed s (heldFrames keys (pre1 ++ [T])) = true)
    (hf2 : runFinite cameraSpeed s (heldFrames keys (pre2 ++ [T])) = true) :
    (|(runFrames cameraSpeed s (heldFrames keys (pre1 ++ [T]))).cameraX.toRat
          - (s.cameraX.toRat + dirX keys
              * (cameraSpeed.toRat * ((F32.ofRat T).toRat - s.lastFrame.toRat)))|
        ≤ runToleranceX cameraSpeed s (heldFrames keys (pre1 ++ [T])) ∧
      |(runFrames cameraSpeed s (heldFrames keys (pre1 ++ [T]))).cameraY.toRat
          - (s.cameraY.toRat + dirY keys
              * (cameraSpeed.toRat * ((F32.ofRat T).toRat - s.lastFrame.toRat)))|
        ≤ runToleranceY cameraSpeed s (heldFrames keys (pre1 ++ [T]))) ∧
    (|(runFrames cameraSpeed s (heldFrames keys (pre1 ++ [T]))).cameraX.toRat
          - (runFrames cameraSpeed s (heldFrames keys (pre2 ++ [T]))).cameraX.toRat|
        ≤ runToleranceX cameraSpeed s (heldFrames keys (pre1 ++ [T]))
          + runToleranceX cameraSpeed s (heldFrames keys (pre2 ++ [T])) ∧
      |(runFrames cameraSpeed s (heldFrames keys (pre1 ++ [T]))).cameraY.toRat
          - (runFrames cameraSpeed s (heldFrames keys (pre2 ++ [T]))).cameraY.toRat|
        ≤ runToleranceY cameraSpeed s (heldFrames keys (pre1 ++ [T]))
          + runToleranceY cameraSpeed s (heldFrames keys (pre2 ++ [T]))) ∧
    (dirX onlyD = 1 ∧ dirX onlyA = -1 ∧ dirY onlyW = 1 ∧ dirY onlyS = -1 ∧
      dirY onlyD = 0 ∧ dirY onlyA = 0 ∧ dirX onlyW = 0 ∧ dirX onlyS = 0) := by
  have x1 := (run_error_X cameraSpeed keys hkx hc (pre1 ++ [T]) s hs hf1).1
  have x2 := (run_error_X cameraSpeed keys hkx hc (pre2 ++ [T]) s hs hf2).1
  have y1 := (run_error_Y cameraSpeed keys hky hc (pre1 ++ [T]) s hs hf1).1
  have y2 := (run_error_Y cameraSpeed keys hky hc (pre2 ++ [T]) s hs hf2).1
  rw [runFrames_lastFrame_snoc] at x1 x2 y1 y2
  refine ⟨⟨x1, y1⟩, ⟨?_, ?_⟩, ?_⟩
  · have a1 := abs_le.1 x1
    have a2 := abs_le.1 x2
    rw [abs_le]
    constructor <;> linarith [a1.1, a1.2, a2.1, a2.2]
  · have a1 := abs_le.1 y1
    have a2 := abs_le.1 y2
    rw [abs_le]
    constructor <;> linarith [a1.1, a1.2, a2.1, a2.2]
  · simp [dirX, dirY, onlyD, onlyA, onlyW, onlyS]

/-- C7, amended, at a concrete input: D held from the initial state, in four
frames of half a second and in one frame, both ending at 2 s. -/
theorem camera_frame_rate_independent_witness :
    (mainCameraSpeed.isFinite = true ∧ stateFinite initialFrameState = true ∧
      runFinite mainCameraSpeed initialFrameState (heldFrames onlyD ([1 / 2, 1, 3 / 2] ++ [2]))
        = true ∧
      runFinite mainCameraSpeed initialFrameState (heldFrames onlyD ([] ++ [2])) = true) ∧
    |(runFrames mainCameraSpeed initialFrameState
          (heldFrames onlyD ([1 / 2, 1, 3 / 2] ++ [2]))).cameraX.toRat
        - (runFrames mainCameraSpeed initialFrameState (heldFrames onlyD ([] ++ [2]))).cameraX.toRat|
      ≤ runToleranceX mainCameraSpeed initialFrameState
          (heldFrames onlyD ([1 / 2, 1, 3 / 2] ++ [2]))
        + runToleranceX mainCameraSpeed initialFrameState (heldFrames onlyD ([] ++ [2])) := by
  have h1 : F32.ofRat (1 / 2) = ⟨false, 126, 0⟩ := by
    unfold F32.ofRat; norm_num; (set_option maxRecDepth 100000 in decide)
  have h2 : F32.ofRat 1 = ⟨false, 127, 0⟩ := by
    unfold F32.ofRat; norm_num; (set_option maxRecDepth 100000 in decide)
  have h3 : F32.ofRat (3 / 2) = ⟨false, 127, 4194304⟩ := by
    unfold F32.ofRat; norm_num; (set_option maxRecDepth 100000 in decide)
  have h4 : F32.ofRat 2 = ⟨false, 128, 0⟩ := by
    unfold F32.ofRat; norm_num; (set_option maxRecDepth 100000 in decide)
  have hc : mainCameraSpeed.isFinite = true := by (set_option maxRecDepth 100000 in decide)
  have hs : stateFinite initialFrameState = true := by (set_option maxRecDepth 100000 in decide)
  have hf1 : runFinite mainCameraSpeed initialFrameState
      (heldFrames onlyD ([1 / 2, 1, 3 / 2] ++ [2])) = true := by
    simp only [heldFrames, List.cons_append, List.nil_append, List.map_cons, List.map_nil,
      runFinite, frameFinite, updateCamera, h1, h2, h3, h4]
    (set_option maxRecDepth 100000 in decide)
  have hf2 : runFinite mainCameraSpeed initialFrameState (heldFrames onlyD ([] ++ [2]))
      = true := by
    simp only [heldFrames, List.nil_append, List.map_cons, List.map_nil,
      runFinite, frameFinite, updateCamera, h4]
    (set_option maxRecDepth 100000 in decide)
  exact ⟨⟨hc, hs, hf1, hf2⟩,
    (camera_frame_rate_independent mainCameraSpeed initialFrameState onlyD [1 / 2, 1, 3 / 2] []
      2 hc hs (by (set_option maxRecDepth 100000 in decide)) (by (set_option maxRecDepth 100000 in decide)) hf1 hf2).2.1.1⟩

theorem one_toRat : (1 : F32).toRat = 1 := mainCameraSpeed_toRat

/-- C8, the claim as stated fails: from `cameraX = 0.1f` and `lastFrame = 1.0f`
with only D held in frames at 2 s and 3 s, the two `deltaTime` values are
exactly 1 and sum to 2, yet `cameraX` grows by 268435443/134217728, not by 2. -/
theorem held_key_misses_two :
    ((frameDeltas mainCameraSpeed ⟨F32.ofRat (1 / 10), 0, 1⟩
        (heldFrames onlyD [2, 3])).map F32.toRat).sum = 2 ∧
    (runFrames mainCameraSpeed ⟨F32.ofRat (1 / 10), 0, 1⟩ (heldFrames onlyD [2, 3])).cameraX.toRat
        - (F32.ofRat (1 / 10)).toRat
      = 268435443 / 134217728 := by
  have h0 : F32.ofRat (1 / 10) = ⟨false, 123, 5033165⟩ := by
    unfold F32.ofRat; norm_num; (set_option maxRecDepth 100000 in decide)
  have h2 : F32.ofRat 2 = ⟨false, 128, 0⟩ := by
    unfold F32.ofRat; norm_num; (set_option maxRecDepth 100000 in decide)
  have h3 : F32.ofRat 3 = ⟨false, 128, 4194304⟩ := by
    unfold F32.ofRat; norm_num; (set_option maxRecDepth 100000 in decide)
  have d : frameDeltas mainCameraSpeed ⟨F32.ofRat (1 / 10), 0, 1⟩ (heldFrames onlyD [2, 3])
      = [1, 1] := by
    rw [h0]
    simp only [heldFrames, List.map_cons, List.map_nil, frameDeltas, updateCamera, h2, h3]
    (set_option maxRecDepth 100000 in decide)
  have r : (runFrames mainCameraSpeed ⟨F32.ofRat (1 / 10), 0, 1⟩
      (heldFrames onlyD [2, 3])).cameraX = ⟨false, 128, 419430⟩ := by
    rw [h0]
    simp only [heldFrames, List.map_cons, List.map_nil, runFrames, List.foldl_cons,
      List.foldl_nil, updateCamera, h2, h3]
    (set_option maxRecDepth 100000 in decide)
  have i0 : (⟨false, 123, 5033165⟩ : F32).toInt
      = 71362385698680390680846996795520405043412992 := by (set_option maxRecDepth 100000 in decide)
  have i1 : (⟨false, 128, 419430⟩ : F32).toInt
      = 1498610009284784490923507575247048406848241664 := by (set_option maxRecDepth 100000 in decide)
  constructor
  · rw [d]
    simp only [List.map_cons, List.map_nil, List.sum_cons, List.sum_nil, one_toRat]
    norm_num
  · rw [r, h0]
    unfold F32.toRat
    rw [i0, i1]
    norm_num

/-- C8, amended: in one frame each held movement key changes only its own axis
by the float product `cameraSpeed * deltaTime`, in float arithmetic (W adds to
`cameraY`, S subtracts from `cameraY`, A subtracts from `cameraX`, D adds to
`cameraX`), and a key that is not held changes nothing.  With only D held
`cameraY` is unchanged; and from a finite start state, in frames whose floats
are all finite and whose `deltaTime` values sum to 2, at the speed `1.0f` of
`main`, `cameraX` grows by 2 up to the accumulated rounding tolerance of the
run. -/
theorem camera_key_effect (cameraSpeed : F32) (s : FrameState) (inp : FrameInput) :
    ((updateCamera cameraSpeed s inp).cameraX =
        (if inp.keys.keyD then
          (if inp.keys.keyA then s.cameraX - cameraSpeed * (F32.ofRat inp.time - s.lastFrame)
            else s.cameraX) + cameraSpeed * (F32.ofRat inp.time - s.lastFrame)
        else
          (if inp.keys.keyA then s.cameraX - cameraSpeed * (F32.ofRat inp.time - s.lastFrame)
            else s.cameraX)) ∧
      (updateCamera cameraSpeed s inp).cameraY =
        (if inp.keys.keyS then
          (if inp.keys.keyW then s.cameraY + cameraSpeed * (F32.ofRat inp.time - s.lastFrame)
            else s.cameraY) - cameraSpeed * (F32.ofRat inp.time - s.lastFrame)
        else
          (if inp.keys.keyW then s.cameraY + cameraSpeed * (F32.ofRat inp.time - s.lastFrame)
            else s.cameraY))) ∧
    (∀ (s0 : FrameState) (times : List ℚ),
      (runFrames mainCameraSpeed s0 (heldFrames onlyD times)).cameraY = s0.cameraY) ∧
    (∀ (s0 : FrameState) (times : List ℚ),
      stateFinite s0 = true →
      runFinite mainCameraSpeed s0 (heldFrames onlyD times) = true →
      ((frameDeltas mainCameraSpeed s0 (heldFrames onlyD times)).map F32.toRat).sum = 2 →
      |(runFrames mainCameraSpeed s0 (heldFrames onlyD times)).cameraX.toRat
          - (s0.cameraX.toRat + 2)|
        ≤ runToleranceX mainCameraSpeed s0 (heldFrames onlyD times)) := by
  refine ⟨⟨updateCamera_cameraX _ _ _, updateCamera_cameraY _ _ _⟩, ?_, ?_⟩
  · intro s0 times
    exact runFrames_cameraY_unchanged mainCameraSpeed onlyD rfl rfl times s0
  · intro s0 times hs hf hsum
    have h := (run_error_X mainCameraSpeed onlyD (by (set_option maxRecDepth 100000 in decide)) (by (set_option maxRecDepth 100000 in decide)) times s0 hs hf).2
    rw [hsum, mainCameraSpeed_toRat] at h
    have e : dirX onlyD * (1 * 2) = 2 := by simp [dirX, onlyD]
    rw [e] at h
    exact h

/-- C8, amended, at a concrete input: D held from the initial state in frames
at 0.5 s, 1 s and 2 s. -/
theorem camera_key_effect_witness :
    (stateFinite initialFrameState = true ∧
      runFinite mainCameraSpeed initialFrameState (heldFrames onlyD [1 / 2, 1, 2]) = true ∧
      ((frameDeltas mainCameraSpeed initialFrameState
        (heldFrames onlyD [1 / 2, 1, 2])).map F32.toRat).sum = 2) ∧
    |(runFrames mainCameraSpeed initialFrameState (heldFrames onlyD [1 / 2, 1, 2])).cameraX.toRat
        - (initialFrameState.cameraX.toRat + 2)|
      ≤ runToleranceX mainCameraSpeed initialFrameState (heldFrames onlyD [1 / 2, 1, 2]) := by
  have h1 : F32.ofRat (1 / 2) = ⟨false, 126, 0⟩ := by
    unfold F32.ofRat; norm_num; (set_option maxRecDepth 100000 in decide)
  have h2 : F32.ofRat 1 = ⟨false, 127, 0⟩ := by
    unfold F32.ofRat; norm_num; (set_option maxRecDepth 100000 in decide)
  have h4 : F32.ofRat 2 = ⟨false, 128, 0⟩ := by
    unfold F32.ofRat; norm_num; (set_option maxRecDepth 100000 in decide)
  have hs : stateFinite initialFrameState = true := by (set_option maxRecDepth 100000 in decide)
  have hf : runFinite mainCameraSpeed initialFrameState (heldFrames onlyD [1 / 2, 1, 2])
      = true := by
    simp only [heldFrames, List.map_cons, List.map_nil, runFinite, frameFinite, updateCamera,
      h1, h2, h4]
    (set_option maxRecDepth 100000 in decide)
  have d : frameDeltas mainCameraSpeed initialFrameState (heldFrames onlyD [1 / 2, 1, 2])
      = [⟨false, 126, 0⟩, ⟨false, 126, 0⟩, 1] := by
    simp only [heldFrames, List.map_cons, List.map_nil, frameDeltas, updateCamera, h1, h2, h4]
    (set_option maxRecDepth 100000 in decide)
  have ih : (⟨false, 126, 0⟩ : F32).toInt = 2 ^ 148 := by (set_option maxRecDepth 100000 in decide)
  have hsum : ((frameDeltas mainCameraSpeed initialFrameState
      (heldFrames onlyD [1 / 2, 1, 2])).map F32.toRat).sum = 2 := by
    rw [d]
    simp only [List.map_cons, List.map_nil, List.sum_cons, List.sum_nil, one_toRat]
    unfold F32.toRat
    rw [ih]
    norm_num
  exact ⟨⟨hs, hf, hsum⟩,
    (camera_key_effect 1 initialFrameState ⟨1, onlyD⟩).2.2 initialFrameState [1 / 2, 1, 2]
      hs hf hsum⟩

/-! ## Claim C10: the `deltaTime` values -/

theorem zero_toRat : (0 : F32).toRat = 0 := by
  have : (0 : F32).toInt = 0 := rfl
  unfold F32.toRat
  rw [this]
  norm_num

theorem ofRat_not_nan (q : ℚ) : (F32.ofRat q).isNaN = false := round_not_nan _ _ _

/-- C10, the claim as stated fails.  With frames at 0.1 s and 3.7 s the two
`deltaTime` values sum, in exact arithmetic, to 13/134217728 more than the last
float timestamp.  With timestamps -1 and -1/2, which are non-decreasing, the
first `deltaTime` is -1, which is negative. -/
theorem deltaTime_sum_is_inexact :
    ((frameDeltas mainCameraSpeed initialFrameState
        (heldFrames onlyD [1 / 10, 37 / 10])).map F32.toRat).sum
      - (F32.ofRat (37 / 10)).toRat = 13 / 134217728 ∧
    ((-1 : ℚ) ≤ -1 / 2 ∧
      (frameDeltas mainCameraSpeed initialFrameState (heldFrames onlyD [-1, -1 / 2])).head?
        = some (F32.ofRat (-1)) ∧
      (F32.ofRat (-1)).toRat = -1 ∧
      F32.le 0 (F32.ofRat (-1)) = false) := by
  have h1 : F32.ofRat (1 / 10) = ⟨false, 123, 5033165⟩ := by
    unfold F32.ofRat; norm_num; (set_option maxRecDepth 100000 in decide)
  have h2 : F32.ofRat (37 / 10) = ⟨false, 128, 7130317⟩ := by
    unfold F32.ofRat; norm_num; (set_option maxRecDepth 100000 in decide)
  have h3 : F32.ofRat (-1) = ⟨true, 127, 0⟩ := by
    unfold F32.ofRat; norm_num; (set_option maxRecDepth 100000 in decide)
  have h4 : F32.ofRat (-1 / 2) = ⟨true, 126, 0⟩ := by
    unfold F32.ofRat; norm_num; (set_option maxRecDepth 100000 in decide)
  have d : frameDeltas mainCameraSpeed initialFrameState (heldFrames onlyD [1 / 10, 37 / 10])
      = [⟨false, 123, 5033165⟩, ⟨false, 128, 6710887⟩] := by
    simp only [heldFrames, List.map_cons, List.map_nil, frameDeltas, updateCamera, h1, h2]
    (set_option maxRecDepth 100000 in decide)
  have i1 : (⟨false, 123, 5033165⟩ : F32).toInt
      = 71362385698680390680846996795520405043412992 := by
    (set_option maxRecDepth 100000 in decide)
  have i2 : (⟨false, 128, 6710887⟩ : F32).toInt
      = 2569045948955437862186453784021473475019407360 := by
    (set_option maxRecDepth 100000 in decide)
  have i3 : (⟨false, 128, 7130317⟩ : F32).toInt
      = 2640408265534262472051675389819026745484902400 := by
    (set_option maxRecDepth 100000 in decide)
  have i4 : (⟨true, 127, 0⟩ : F32).toInt = -2 ^ 149 := by
    (set_option maxRecDepth 100000 in decide)
  refine ⟨?_, by norm_num, ?_, ?_, ?_⟩
  · rw [d, h2]
    simp only [List.map_cons, List.map_nil, List.sum_cons, List.sum_nil]
    unfold F32.toRat
    rw [i1, i2, i3]
    norm_num
  · simp only [heldFrames, List.map_cons, List.map_nil, frameDeltas, List.head?_cons]
    rw [show initialFrameState.lastFrame = 0 from rfl, sub_zero_eq _ (ofRat_not_nan _)]
  · rw [h3]
    unfold F32.toRat
    rw [i4]
    norm_num
  · rw [h3]
    (set_option maxRecDepth 100000 in decide)

/-- C10, amended: with `lastFrame` starting at `0.0f`, the first frame's
`deltaTime` is the float timestamp of that frame itself.  When every float
timestamp and every `deltaTime` is finite, the `deltaTime` values sum, in
exact arithmetic, to the last float timestamp up to rounding: the difference is
at most `2 ^ (-24)` times the sum of the magnitudes of the exact differences
between successive float timestamps.  When moreover the float timestamps are
non-decreasing and the first one is not below 0, every `deltaTime` is
`>= 0.0f`. -/
theorem deltaTime_telescopes (cameraSpeed : F32) :
    (∀ (first : FrameInput) (rest : List FrameInput),
      (frameDeltas cameraSpeed initialFrameState (first :: rest)).head?
        = some (F32.ofRat first.time)) ∧
    (∀ (pre : List FrameInput) (last : FrameInput),
      stampsFinite 0 (pre ++ [last]) = true →
      |((frameDeltas cameraSpeed initialFrameState (pre ++ [last])).map F32.toRat).sum
          - (F32.ofRat last.time).toRat|
        ≤ ((timeGaps 0 (pre ++ [last])).map (fun g => |g|)).sum / 2 ^ 24) ∧
    (∀ inputs : List FrameInput,
      stampsFinite 0 inputs = true → stampsMonotone 0 inputs = true →
      ∀ d ∈ frameDeltas cameraSpeed initialFrameState inputs, F32.le 0 d = true) := by
  refine ⟨?_, ?_, ?_⟩
  · intro first rest
    rw [frameDeltas_cons, List.head?_cons, show initialFrameState.lastFrame = 0 from rfl,
      sub_zero_eq _ (ofRat_not_nan _)]
  · intro pre last hfin
    have h := frameDeltas_sum_error cameraSpeed (pre ++ [last]) initialFrameState rfl hfin
    rw [show initialFrameState.lastFrame = 0 from rfl, timeGaps_sum, zero_toRat, sub_zero] at h
    exact h
  · intro inputs hfin hmono
    exact frameDeltas_nonneg cameraSpeed inputs initialFrameState rfl hfin hmono

/-- C10, amended, at a concrete input: frames at 0.1 s and 3.7 s. -/
theorem deltaTime_telescopes_witness :
    (stampsFinite 0 ([⟨1 / 10, onlyD⟩] ++ [⟨37 / 10, onlyD⟩]) = true ∧
      stampsMonotone 0 ([⟨1 / 10, onlyD⟩] ++ [⟨37 / 10, onlyD⟩]) = true) ∧
    |((frameDeltas mainCameraSpeed initialFrameState
          ([⟨1 / 10, onlyD⟩] ++ [⟨37 / 10, onlyD⟩])).map F32.toRat).sum
        - (F32.ofRat (37 / 10)).toRat|
      ≤ ((timeGaps 0 ([⟨1 / 10, onlyD⟩] ++ [⟨37 / 10, onlyD⟩])).map (fun g => |g|)).sum / 2 ^ 24 ∧
    F32.le 0 (F32.ofRat (37 / 10) - F32.ofRat (1 / 10)) = true := by
  have h1 : F32.ofRat (1 / 10) = ⟨false, 123, 5033165⟩ := by
    unfold F32.ofRat; norm_num; (set_option maxRecDepth 100000 in decide)
  have h2 : F32.ofRat (37 / 10) = ⟨false, 128, 7130317⟩ := by
    unfold F32.ofRat; norm_num; (set_option maxRecDepth 100000 in decide)
  have hfin : stampsFinite 0 ([⟨1 / 10, onlyD⟩] ++ [⟨37 / 10, onlyD⟩]) = true := by
    simp only [List.cons_append, List.nil_append, stampsFinite, h1, h2]
    (set_option maxRecDepth 100000 in decide)
  have hmono : stampsMonotone 0 ([⟨1 / 10, onlyD⟩] ++ [⟨37 / 10, onlyD⟩]) = true := by
    simp only [List.cons_append, List.nil_append, stampsMonotone, h1, h2]
    (set_option maxRecDepth 100000 in decide)
  refine ⟨⟨hfin, hmono⟩,
    (deltaTime_telescopes mainCameraSpeed).2.1 [⟨1 / 10, onlyD⟩] ⟨37 / 10, onlyD⟩ hfin, ?_⟩
  have hmem : (F32.ofRat (37 / 10) - F32.ofRat (1 / 10)) ∈
      frameDeltas mainCameraSpeed initialFrameState
        ([⟨1 / 10, onlyD⟩] ++ [⟨37 / 10, onlyD⟩]) := by
    rw [List.cons_append, List.nil_append, frameDeltas_cons, frameDeltas_cons,
      updateCamera_lastFrame]
    exact List.mem_cons_of_mem _ (List.mem_cons_self _ _)
  have h3 := (deltaTime_telescopes mainCameraSpeed).2.2 _ hfin hmono
  exact h3 (F32.ofRat (37 / 10) - F32.ofRat (1 / 10)) hmem

/-! ## Claim C9: the control flow of `main` -/

theorem renderLoop_frames (n : Nat) (rest : List Bool) :
    ∀ log : List Event,
      renderLoop (List.replicate n false ++ true :: rest) log =
        some (log ++ (List.replicate n [Event.drawElements, Event.swapBuffers]).flatten) := by
  induction n with
  | zero => intro log; simp [renderLoop]
  | succ n ih =>
    intro log
    rw [List.replicate_succ, List.cons_append, renderLoop, ih]
    simp [List.replicate_succ]

theorem count_draw_frames (n : Nat) :
    (List.replicate n [Event.drawElements, Event.swapBuffers]).flatten.count Event.drawElements
      = n := by
  induction n with
  | zero => rfl
  | succ n ih =>
    rw [List.replicate_succ, List.flatten_cons, List.count_append, ih]
    simp [List.count_cons]
    omega

/-- C9: `main` ends with a non-zero exit status and without a frame of the
render loop exactly when window creation fails or the GL loader fails.  When
both succeed, whether the texture decoded or not, a run in which the close
request comes after `n` frames draws in each of the `n` frames and returns 0;
a failed decode only prints its message in place of the texture upload. -/
theorem main_failure_semantics (c : Collaborators) (textureDecoded : Bool) (n : Nat)
    (rest : List Bool) :
    ((∃ o, main c = some o ∧ o.exitStatus ≠ 0 ∧ framesDrawn o = 0) ↔
      (c.windowCreated = false ∨ c.loaderOk = false)) ∧
    main ⟨true, true, textureDecoded, List.replicate n false ++ true :: rest⟩ =
      some ⟨0,
        (if textureDecoded then [Event.texImage] else [Event.printTextureFailed]) ++
        (List.replicate n [Event.drawElements, Event.swapBuffers]).flatten ++
        [Event.cleanup, Event.glfwTerminate]⟩ ∧
    (main ⟨true, true, textureDecoded, List.replicate n false ++ true :: rest⟩).map
        Outcome.exitStatus = some 0 ∧
    (main ⟨true, true, textureDecoded, List.replicate n false ++ true :: rest⟩).map
        framesDrawn = some n := by
  have hrun : ∀ tex : Bool,
      main ⟨true, true, tex, List.replicate n false ++ true :: rest⟩ =
        some ⟨0,
          (if tex then [Event.texImage] else [Event.printTextureFailed]) ++
          (List.replicate n [Event.drawElements, Event.swapBuffers]).flatten ++
          [Event.cleanup, Event.glfwTerminate]⟩ := by
    intro tex
    simp only [main, Bool.not_true, Bool.false_eq_true, if_false]
    rw [renderLoop_frames]
  refine ⟨?_, hrun textureDecoded, ?_, ?_⟩
  · constructor
    · rintro ⟨o, hmain, hexit, _⟩
      by_contra hne
      have hw : c.windowCreated = true := by
        cases h : c.windowCreated
        · exact absurd (Or.inl h) hne
        · rfl
      have hl : c.loaderOk = true := by
        cases h : c.loaderOk
        · exact absurd (Or.inr h) hne
        · rfl
      simp only [main, hw, hl, Bool.not_true, Bool.false_eq_true, if_false] at hmain
      cases hloop : renderLoop c.closeRequests
          (if c.textureDecoded then [Event.texImage] else [Event.printTextureFailed]) with
      | none => rw [hloop] at hmain; simp at hmain
      | some log =>
        rw [hloop] at hmain
        simp only [Option.some.injEq] at hmain
        rw [← hmain] at hexit
        exact hexit rfl
    · intro h
      cases hw : c.windowCreated
      · exact ⟨⟨-1, [Event.printFailed, Event.glfwTerminate]⟩,
          by simp [main, hw], by decide, by decide⟩
      · have hl : c.loaderOk = false := by
          rcases h with h | h
          · rw [hw] at h; exact absurd h (by decide)
          · exact h
        exact ⟨⟨-1, [Event.printGladFailed]⟩, by simp [main, hw, hl], by decide, by decide⟩
  · rw [hrun textureDecoded]
    rfl
  · rw [hrun textureDecoded]
    simp only [Option.map_some', framesDrawn, List.count_append, count_draw_frames]
    cases textureDecoded <;> simp [List.count_cons]

end AtlasQuad
